import Mathlib

/-!
Verification of the markdown rendering engine of the pubengine repository
(src/markdown/markdown.go).  Strings are modelled as `List Char`; every Go
function used by the engine is embedded as an executable Lean function that
follows the Go source line by line.  The seven regular expressions of the
source are hand-compiled into scanners that implement Go's leftmost-first
match semantics (non-greedy groups try shorter alternatives first).
-/

/-- Character list of a string literal. -/
@[reducible] def str (s : String) : List Char := s.data

/-- The NUL character used by the inline-code placeholder tokens. -/
def nulC : Char := '\x00'

/-- A string free of NUL characters. -/
def nulFree (l : List Char) : Prop := nulC ∉ l

instance (l : List Char) : Decidable (nulFree l) := by
  unfold nulFree; infer_instance

/-- Whitespace recognized by Go's `unicode.IsSpace` (Latin-1 part; the
further Unicode space code points do not occur in the claims). -/
def isGoSpace (c : Char) : Bool :=
  c = ' ' || c = '\t' || c = '\n' || c = '\x0B' || c = '\x0C' || c = '\r' ||
  c = '\x85' || c = '\xA0'

/-- Whitespace class of Go regexp (the Perl class is exactly `[\t\n\f\r ]`). -/
def reSpace (c : Char) : Bool :=
  c = '\t' || c = '\n' || c = '\x0C' || c = '\r' || c = ' '

/-- Go `strings.TrimSpace`. -/
def trimSpace (l : List Char) : List Char :=
  ((l.dropWhile isGoSpace).reverse.dropWhile isGoSpace).reverse

/-- Go `strings.TrimRight(s, "\r")`. -/
def trimRightCR (l : List Char) : List Char :=
  (l.reverse.dropWhile (fun c => c = '\r')).reverse

/-- Go `strings.Trim(s, "|")`. -/
def trimPipe (l : List Char) : List Char :=
  ((l.dropWhile (fun c => c = '|')).reverse.dropWhile (fun c => c = '|')).reverse

/-- Go `strings.Split(s, sep)` for a one-character separator. -/
def splitOnChar (sep : Char) : List Char → List (List Char)
  | [] => [[]]
  | c :: t =>
    match splitOnChar sep t with
    | [] => [[]]
    | h :: r => if c = sep then [] :: h :: r else (c :: h) :: r

/-- Go `html.EscapeString`, character by character: it escapes exactly
`&`, `'`, `<`, `>` and `"`. -/
def escChar (c : Char) : List Char :=
  if c = '&' then str "&amp;"
  else if c = '\'' then str "&#39;"
  else if c = '<' then str "&lt;"
  else if c = '>' then str "&gt;"
  else if c = '"' then str "&#34;"
  else [c]

/-- Go `html.EscapeString`. -/
def escapeString (l : List Char) : List Char := l.flatMap escChar

/-- Decode a numeric character reference the way Go's `html` package does:
code point 0, surrogates and out-of-range values all become U+FFFD. -/
def charFromCode (v : Nat) : Char :=
  if 0 < v ∧ (v < 0xD800 ∨ (0xDFFF < v ∧ v ≤ 0x10FFFF)) then Char.ofNat v
  else '\uFFFD'

/-- Hex digit value. -/
def hexVal (c : Char) : Nat :=
  if c.isDigit then c.toNat - '0'.toNat
  else if 'a' ≤ c ∧ c ≤ 'f' then c.toNat - 'a'.toNat + 10
  else c.toNat - 'A'.toNat + 10

def isHexDigit (c : Char) : Bool :=
  c.isDigit || ('a' ≤ c && c ≤ 'f') || ('A' ≤ c && c ≤ 'F')

/-- Parse one HTML entity after a `&`.  Modelled from Go `html.UnescapeString`:
the five standard named entities plus decimal and hexadecimal numeric
references (Go additionally knows the full HTML5 entity table and a
Windows-1252 remap table for numeric values 0x80..0x9F; the claims do not
depend on those).  Numeric references may omit the closing semicolon, as in
Go.  Returns the decoded character and the unconsumed rest. -/
def unescEntity (l : List Char) : Option (Char × List Char) :=
  if (str "amp;").isPrefixOf l then some ('&', l.drop 4)
  else if (str "lt;").isPrefixOf l then some ('<', l.drop 3)
  else if (str "gt;").isPrefixOf l then some ('>', l.drop 3)
  else if (str "quot;").isPrefixOf l then some ('"', l.drop 5)
  else if (str "apos;").isPrefixOf l then some ('\'', l.drop 5)
  else
    match l with
    | '#' :: t =>
      match t with
      | 'x' :: t2 =>
        let ds := t2.takeWhile isHexDigit
        let t3 := t2.dropWhile isHexDigit
        if ds = [] then none
        else
          let v := ds.foldl (fun a c => a * 16 + hexVal c) 0
          match t3 with
          | ';' :: t4 => some (charFromCode v, t4)
          | _ => some (charFromCode v, t3)
      | _ =>
        let ds := t.takeWhile Char.isDigit
        let t3 := t.dropWhile Char.isDigit
        if ds = [] then none
        else
          let v := ds.foldl (fun a c => a * 10 + (c.toNat - '0'.toNat)) 0
          match t3 with
          | ';' :: t4 => some (charFromCode v, t4)
          | _ => some (charFromCode v, t3)
    | _ => none

/-- Go `html.UnescapeString`, fuelled so that the kernel can evaluate it. -/
def unescapeAux : Nat → List Char → List Char
  | 0, l => l
  | _ + 1, [] => []
  | fuel + 1, c :: t =>
    if c = '&' then
      match unescEntity t with
      | some (ch, rest) => ch :: unescapeAux fuel rest
      | none => '&' :: unescapeAux fuel t
    else c :: unescapeAux fuel t

/-- Go `html.UnescapeString`. -/
def unescapeString (l : List Char) : List Char := unescapeAux l.length l

/-- Scheme scanner of Go `net/url.getScheme`: the scheme is a run of ASCII
letters, digits, `+`, `-`, `.` starting with a letter, terminated by `:`.
`none` covers every case in which `url.Parse` yields an empty scheme or the
"missing protocol scheme" error. -/
def getSchemeAux : List Char → List Char → Option (List Char)
  | _, [] => none
  | acc, c :: t =>
    if ('a' ≤ c ∧ c ≤ 'z') ∨ ('A' ≤ c ∧ c ≤ 'Z') then getSchemeAux (acc ++ [c]) t
    else if c.isDigit ∨ c = '+' ∨ c = '-' ∨ c = '.' then
      (if acc = [] then none else getSchemeAux (acc ++ [c]) t)
    else if c = ':' then (if acc = [] then none else some acc)
    else none

/-- An ASCII control byte, rejected by Go `url.Parse`. -/
def isCTL (c : Char) : Bool := c.toNat < 0x20 || c.toNat = 0x7F

/-- The part of Go `url.Parse` that the engine's `SafeURL` observes: the
parse error on control characters, and the resulting `Scheme` field.
(Deeper component validation of `url.Parse`, e.g. of percent escapes or host
names, is not modelled; it can only turn further inputs into rejections.) -/
def urlSchemeOf (l : List Char) : Option (List Char) :=
  if l.any isCTL then none else getSchemeAux [] l

/-- Go `strings.ToLower` (ASCII; scheme characters are ASCII). -/
def toLowerStr (l : List Char) : List Char := l.map Char.toLower

/-- `SafeURL` from src/markdown/markdown.go: trim and HTML-unescape, accept
empty never, accept `/`- and `#`-prefixed values re-escaped, otherwise
require a parseable URL whose lowercased scheme is http, https, mailto or
tel, and return the value HTML-escaped; everything else yields `[]`. -/
def SafeURL (raw : List Char) : List Char :=
  let val := trimSpace (unescapeString raw)
  if val = [] then []
  else if (str "/").isPrefixOf val ∨ (str "#").isPrefixOf val then escapeString val
  else
    match urlSchemeOf val with
    | none => []
    | some sch =>
      if toLowerStr sch = str "http" ∨ toLowerStr sch = str "https" ∨
         toLowerStr sch = str "mailto" ∨ toLowerStr sch = str "tel" then
        escapeString val
      else []

/-- All splits `l = a ++ delim ++ b` whose prefix `a` is newline-free, in
order of increasing length of `a`: the candidate order of a non-greedy
`(.*?)` group followed by the literal `delim` in Go regexp. -/
def dotSplits (delim : List Char) : List Char → List (List Char × List Char)
  | [] => if delim = [] then [([], [])] else []
  | c :: t =>
    (if delim.isPrefixOf (c :: t) then [(([] : List Char), (c :: t).drop delim.length)] else [])
    ++ (if c = '\n' then [] else (dotSplits delim t).map (fun p => (c :: p.1, p.2)))

/-- First occurrence split: `l = a ++ pat ++ b` at the leftmost occurrence of
`pat` (Go `strings.Index`). -/
def splitAtSub? (pat : List Char) : List Char → Option (List Char × List Char)
  | [] => if pat = [] then some ([], []) else none
  | c :: t =>
    if pat.isPrefixOf (c :: t) then some ([], (c :: t).drop pat.length)
    else (splitAtSub? pat t).map (fun p => (c :: p.1, p.2))

/-- Submatch data of `reImg`. -/
structure ImgMatch where
  alt : List Char
  url : List Char
  style : List Char
  size : Option (List Char × List Char)
deriving DecidableEq, Repr

/-- The `\|(\d+)\|(\d+)\}` tail of `reImg`, anchored. -/
def matchSize (l : List Char) : Option ((List Char × List Char) × List Char) :=
  match l with
  | '|' :: t =>
    let w := t.takeWhile Char.isDigit
    let t2 := t.dropWhile Char.isDigit
    if w = [] then none
    else
      match t2 with
      | '|' :: t3 =>
        let hh := t3.takeWhile Char.isDigit
        let t4 := t3.dropWhile Char.isDigit
        if hh = [] then none
        else
          match t4 with
          | '\x7d' :: t5 => some ((w, hh), t5)
          | _ => none
      | _ => none
  | _ => none

/-- The `([^|}]*?)(?:\|(\d+)\|(\d+))?\}` tail of `reImg`, anchored.  The
non-greedy style group extends exactly to the first `|` or `}`. -/
def matchStyleClose (l : List Char) :
    Option ((List Char × Option (List Char × List Char)) × List Char) :=
  let sty := l.takeWhile (fun c => ¬ (c = '|' ∨ c = '\x7d'))
  let t := l.dropWhile (fun c => ¬ (c = '|' ∨ c = '\x7d'))
  match t with
  | '\x7d' :: t2 => some ((sty, none), t2)
  | '|' :: _ => (matchSize t).map (fun p => ((sty, some p.1), p.2))
  | _ => none

/-- `reImg` = `\!\[(.*?)\]\((.*?)\)\{([^|}]*?)(?:\|(\d+)\|(\d+))?\}`,
anchored at the start of `l`, with Go's backtracking preference order. -/
def matchImgAt (l : List Char) : Option (ImgMatch × List Char) :=
  match l with
  | '!' :: '[' :: t =>
    (dotSplits (str "](") t).findSome? (fun pa =>
      (dotSplits (str ")\x7b") pa.2).findSome? (fun pu =>
        (matchStyleClose pu.2).map (fun ps =>
          (⟨pa.1, pu.1, ps.1.1, ps.1.2⟩, ps.2))))
  | _ => none

/-- Submatch data of `reLink`. -/
structure LinkMatch where
  text : List Char
  url : List Char
  caret : Bool
deriving DecidableEq, Repr

/-- `reLink` = `\[(.*?)\]\((.*?)\)(\^)?`, anchored at the start of `l`. -/
def matchLinkAt (l : List Char) : Option (LinkMatch × List Char) :=
  match l with
  | '[' :: t =>
    (dotSplits (str "](") t).findSome? (fun pt =>
      (dotSplits (str ")") pt.2).findSome? (fun pu =>
        match pu.2 with
        | '^' :: r => some (⟨pt.1, pu.1, true⟩, r)
        | r => some (⟨pt.1, pu.1, false⟩, r)))
  | _ => none

/-- The text matched by the optional `(?:\|(\d+)\|(\d+))?\}` tail of
`reImg`, as a function of the captured size groups. -/
def sizeTail : Option (List Char × List Char) → List Char → List Char
  | none, r => '\x7d' :: r
  | some (w, hh), r => '|' :: (w ++ ('|' :: (hh ++ ('\x7d' :: r))))

/-- The text matched by the optional `(\^)?` tail of `reLink`, as a
function of the caret group. -/
def caretTail : Bool → List Char → List Char
  | true, r => '^' :: r
  | false, r => r

/-- The backtick character (kept out of character-literal syntax). -/
def btick : Char := Char.ofNat 96

/-- `reInlineCode` = `` `([^`]+)` ``, anchored at the start of `l`. -/
def matchCodeAt (l : List Char) : Option (List Char × List Char) :=
  match l with
  | c :: t =>
    if c = btick then
      let g := t.takeWhile (fun d => ¬ d = btick)
      let t2 := t.dropWhile (fun d => ¬ d = btick)
      if g = [] then none
      else
        match t2 with
        | d :: r => if d = btick then some (g, r) else none
        | _ => none
    else none
  | _ => none

/-- `reBold` = `\*\*(.+?)\*\*`, anchored at the start of `l`. -/
def matchBoldAt (l : List Char) : Option (List Char × List Char) :=
  match l with
  | '*' :: '*' :: t =>
    (dotSplits (str "**") t).findSome? (fun p =>
      if p.1 = [] then none else some (p.1, p.2))
  | _ => none

/-- `reBoldUnderscore` = `__(.+?)__`, anchored at the start of `l`. -/
def matchBoldUAt (l : List Char) : Option (List Char × List Char) :=
  match l with
  | '_' :: '_' :: t =>
    (dotSplits (str "__") t).findSome? (fun p =>
      if p.1 = [] then none else some (p.1, p.2))
  | _ => none

/-- `reItalic` = `\*([^*]+)\*`, anchored at the start of `l`. -/
def matchItalicAt (l : List Char) : Option (List Char × List Char) :=
  match l with
  | '*' :: t =>
    let g := t.takeWhile (fun d => ¬ d = '*')
    let t2 := t.dropWhile (fun d => ¬ d = '*')
    if g = [] then none
    else
      match t2 with
      | '*' :: r => some (g, r)
      | _ => none
  | _ => none

/-- `reItalicUnderscore` = `_([^_]+)_`, anchored at the start of `l`. -/
def matchItalicUAt (l : List Char) : Option (List Char × List Char) :=
  match l with
  | '_' :: t =>
    let g := t.takeWhile (fun d => ¬ d = '_')
    let t2 := t.dropWhile (fun d => ¬ d = '_')
    if g = [] then none
    else
      match t2 with
      | '_' :: r => some (g, r)
      | _ => none
  | _ => none

/-- Generic `regexp.ReplaceAllStringFunc` driver with a threaded state (the
image counter, or the recorded inline-code fragments): scan left to right,
at each position try the anchored matcher, replace and continue after the
match, otherwise copy one character.  Fuelled so that the kernel can
evaluate it; `length l + 1` fuel always suffices. -/
def replaceAllFuelSt {μ σ : Type} (matchAt : List Char → Option (μ × List Char))
    (repl : μ → σ → List Char × σ) : Nat → List Char → σ → List Char × σ
  | 0, l, st => (l, st)
  | _ + 1, [], st => ([], st)
  | fuel + 1, c :: t, st =>
    match matchAt (c :: t) with
    | some (m, r) =>
      let p := repl m st
      let q := replaceAllFuelSt matchAt repl fuel r p.2
      (p.1 ++ q.1, q.2)
    | none =>
      let q := replaceAllFuelSt matchAt repl fuel t st
      (c :: q.1, q.2)

/-- The image-substitution callback of `FormatInline` (lines 316-344 of
markdown.go), including the counter increment and the loading attribute. -/
def imgRepl (m : ImgMatch) (cnt : Nat) : List Char × Nat :=
  let src := SafeURL m.url
  if src = [] then (m.alt, cnt)
  else
    let width := match m.size with | some p => p.1 | none => str "1024"
    let height := match m.size with | some p => p.2 | none => str "768"
    let cnt' := cnt + 1
    let loadAttr := if cnt' = 1 then str "fetchpriority=\"high\"" else str "loading=\"eager\""
    (str "<img " ++ loadAttr ++ str " width=\"" ++ width ++ str "\" height=\"" ++ height ++
      str "\" alt=\"" ++ m.alt ++ str "\" src=\"" ++ src ++ str "\" style=\"" ++ m.style ++
      str "\" decoding=\"async\"/>", cnt')

/-- The link-substitution callback of `FormatInline` (lines 345-359). -/
def linkRepl (m : LinkMatch) : List Char :=
  let href := SafeURL m.url
  if href = [] then m.text
  else
    let attrs := str "class=\"underline decoration-2 underline-offset-4\"" ++
      (if m.caret then str " target=\"_blank\" rel=\"noopener noreferrer\"" else [])
    str "<a href=\"" ++ href ++ str "\" " ++ attrs ++ str ">" ++ m.text ++ str "</a>"

/-- Decimal digits of a natural number (Go `strconv.Itoa` on a counter). -/
def natDigitsAux : Nat → Nat → List Char → List Char
  | 0, _, acc => acc
  | f + 1, n, acc =>
    if n < 10 then Char.ofNat (48 + n) :: acc
    else natDigitsAux f (n / 10) (Char.ofNat (48 + n % 10) :: acc)

def natDigits (n : Nat) : List Char := natDigitsAux (n + 1) n []

/-- The placeholder token `"\x00IC" + itoa n + "\x00"` of `FormatInline`. -/
def phTok (n : Nat) : List Char := nulC :: 'I' :: 'C' :: (natDigits n ++ [nulC])

/-- The inline-code extraction callback (lines 363-368): emit a placeholder
numbered by the current count and record the wrapped `<code>` fragment. -/
def codeRepl (g : List Char) (frags : List (List Char)) :
    List Char × List (List Char) :=
  (phTok frags.length, frags ++ [str "<code>" ++ g ++ str "</code>"])

def imgStage (l : List Char) (cnt : Nat) : List Char × Nat :=
  replaceAllFuelSt matchImgAt imgRepl (l.length + 1) l cnt

def linkStage (l : List Char) : List Char :=
  (replaceAllFuelSt matchLinkAt (fun m _ => (linkRepl m, ())) (l.length + 1) l ()).1

def codeStage (l : List Char) : List Char × List (List Char) :=
  replaceAllFuelSt matchCodeAt codeRepl (l.length + 1) l []

def reBoldReplace (l : List Char) : List Char :=
  (replaceAllFuelSt matchBoldAt
    (fun g _ => (str "<strong>" ++ g ++ str "</strong>", ())) (l.length + 1) l ()).1

def reBoldUReplace (l : List Char) : List Char :=
  (replaceAllFuelSt matchBoldUAt
    (fun g _ => (str "<strong>" ++ g ++ str "</strong>", ())) (l.length + 1) l ()).1

def reItalicReplace (l : List Char) : List Char :=
  (replaceAllFuelSt matchItalicAt
    (fun g _ => (str "<em>" ++ g ++ str "</em>", ())) (l.length + 1) l ()).1

def reItalicUReplace (l : List Char) : List Char :=
  (replaceAllFuelSt matchItalicUAt
    (fun g _ => (str "<em>" ++ g ++ str "</em>", ())) (l.length + 1) l ()).1

/-- The emphasis pipeline applied to one segment (lines 370-376), in source
order: bold, bold-underscore, italic, italic-underscore. -/
def emphSeg (seg : List Char) : List Char :=
  reItalicUReplace (reItalicReplace (reBoldUReplace (reBoldReplace seg)))

/-- `ApplyOutsideTags` (lines 290-310): apply `fn` only to the text between
HTML tags, copying `<...>` spans verbatim; a `<` without closing `>` is
copied verbatim to the end. -/
def ApplyOutsideTagsAux (fn : List Char → List Char) : Nat → List Char → List Char
  | 0, l => l
  | _ + 1, [] => []
  | fuel + 1, c :: t =>
    let l := c :: t
    match splitAtSub? (str "<") l with
    | none => fn l
    | some (pre, r) =>
      match splitAtSub? (str ">") r with
      | none => (if pre = [] then [] else fn pre) ++ '<' :: r
      | some (inner, after) =>
        (if pre = [] then [] else fn pre) ++ '<' :: (inner ++ '>' :: ApplyOutsideTagsAux fn fuel after)

def ApplyOutsideTags (fn : List Char → List Char) (l : List Char) : List Char :=
  ApplyOutsideTagsAux fn (l.length + 1) l

/-- Go `strings.Replace(s, pat, repl, 1)`: replace the leftmost occurrence
of `pat`, if any. -/
def replaceOnce (pat repl : List Char) : List Char → List Char
  | [] => []
  | c :: t =>
    if pat.isPrefixOf (c :: t) then repl ++ (c :: t).drop pat.length
    else c :: replaceOnce pat repl t

/-- The placeholder-restoration loop of `FormatInline` (lines 378-380). -/
def restoreCodes : List Char → List (List Char) → Nat → List Char
  | l, [], _ => l
  | l, c :: cs, i => restoreCodes (replaceOnce (phTok i) c l) cs (i + 1)

/-- The recorded inline-code fragments that a `FormatInline` call produces
for input `s` (the contents of `inlineCodeBlocks` after extraction). -/
def inlineCodeFragments (s : List Char) (cnt : Nat) : List (List Char) :=
  (codeStage (linkStage (imgStage (escapeString s) cnt).1)).2

/-- `FormatInline` (lines 313-382): escape the whole input, then substitute
images, links, inline code (via placeholders), emphasis outside tags, and
restore the recorded inline-code fragments.  Returns the formatted text and
the updated image counter. -/
def FormatInline (s : List Char) (cnt : Nat) : List Char × Nat :=
  let escaped := escapeString s
  let p1 := imgStage escaped cnt
  let e2 := linkStage p1.1
  let p3 := codeStage e2
  let e4 := ApplyOutsideTags emphSeg p3.1
  (restoreCodes e4 p3.2 0, p1.2)

/-- `parseTableCells` (lines 265-273). -/
def parseTableCells (line : List Char) : List (List Char) :=
  (splitOnChar '|' (trimPipe (trimSpace line))).map trimSpace

/-- `isTableSeparator` (lines 275-286): every cell, trimmed and with `-` and
`:` removed, must be empty. -/
def isTableSeparator (line : List Char) : Bool :=
  (splitOnChar '|' (trimPipe (trimSpace line))).all (fun cell =>
    (trimSpace cell).filter (fun c => ¬ (c = '-') ∧ ¬ (c = ':')) = [])

/-- `reOrderedList.MatchString` for `^(\d+)\.\s`. -/
def orderedMatch (line : List Char) : Bool :=
  let d := line.takeWhile Char.isDigit
  if d = [] then false
  else
    match line.dropWhile Char.isDigit with
    | '.' :: c :: _ => reSpace c
    | _ => false

/-- `reOrderedList.ReplaceAllString(line, "")`: strip the matched
`digits . space` prefix. -/
def stripOrdered (line : List Char) : List Char :=
  if orderedMatch line then (line.dropWhile Char.isDigit).drop 2 else line

/-- The mutable state of one `RenderMarkdown` call (lines 40-50). -/
structure RState where
  buf : List Char
  imageCount : Nat
  inList : Bool
  inOrderedList : Bool
  inPara : Bool
  inQuote : Bool
  inCode : Bool
  codeLang : Bool
  inTable : Bool
  tableHeaderDone : Bool
deriving DecidableEq, Repr

def initRState : RState :=
  ⟨[], 0, false, false, false, false, false, false, false, false⟩

/-- `flushCode` (lines 52-62). -/
def flushCode (st : RState) : RState :=
  if st.inCode then
    { st with
      buf := st.buf ++ str "</code></pre>" ++ (if st.codeLang then str "</div>" else [])
      codeLang := false
      inCode := false
      inPara := false }
  else st

/-- `flushPara` (lines 63-68). -/
def flushPara (st : RState) : RState :=
  if st.inPara then { st with buf := st.buf ++ str "</p>", inPara := false } else st

/-- `flushQuote` (lines 69-74). -/
def flushQuote (st : RState) : RState :=
  if st.inQuote then { st with buf := st.buf ++ str "</blockquote>", inQuote := false } else st

/-- `flushList` (lines 75-80). -/
def flushList (st : RState) : RState :=
  if st.inList then { st with buf := st.buf ++ str "</ul>", inList := false } else st

/-- `flushOrderedList` (lines 81-86). -/
def flushOrderedList (st : RState) : RState :=
  if st.inOrderedList then { st with buf := st.buf ++ str "</ol>", inOrderedList := false } else st

/-- `flushTable` (lines 87-96). -/
def flushTable (st : RState) : RState :=
  if st.inTable then
    { st with
      buf := st.buf ++ (if st.tableHeaderDone then str "</tbody>" else []) ++ str "</table>"
      inTable := false
      tableHeaderDone := false }
  else st

/-- The `<th>`/`<td>` loop over table cells, threading the image counter. -/
def cellsOut (tag ctag : List Char) (cells : List (List Char)) (cnt : Nat) :
    List Char × Nat :=
  cells.foldl (fun acc cell =>
    let p := FormatInline cell acc.2
    (acc.1 ++ tag ++ p.1 ++ ctag, p.2)) ([], cnt)

/-- The body of the per-line loop of `RenderMarkdown` (lines 98-255), acting
on the already CR-trimmed line. -/
def stepCore (st : RState) (line : List Char) : RState :=
  if (str "```").isPrefixOf line then
    if st.inCode then flushCode st
    else
      let st1 := flushQuote (flushOrderedList (flushList (flushPara st)))
      let lang := trimSpace (line.drop 3)
      if lang = [] then
        { st1 with
          buf := st1.buf ++ str "<pre class=\"code-block\"><code>"
          inCode := true
          inPara := true }
      else
        let el := escapeString lang
        { st1 with
          buf := st1.buf ++ str "<div class=\"code-block-wrapper\"><span class=\"code-lang code-lang-" ++
            el ++ str "\">" ++ el ++ str "</span>" ++
            str "<pre class=\"code-block\"><code class=\"language-" ++ el ++ str "\">"
          codeLang := true
          inCode := true
          inPara := true }
  else if st.inCode then
    { st with buf := st.buf ++ escapeString line ++ ['\n'] }
  else if trimSpace line = [] then
    flushTable (flushQuote (flushOrderedList (flushList (flushPara st))))
  else if (str "---").isPrefixOf line then
    let st1 := flushTable (flushQuote (flushOrderedList (flushList (flushPara st))))
    { st1 with buf := st1.buf ++ str "<hr/>" }
  else if (str "# ").isPrefixOf line then
    let st1 := flushTable (flushQuote (flushOrderedList (flushList (flushPara st))))
    let p := FormatInline (trimSpace (line.drop 2)) st1.imageCount
    { st1 with buf := st1.buf ++ str "<h1>" ++ p.1 ++ str "</h1>", imageCount := p.2 }
  else if (str "## ").isPrefixOf line then
    let st1 := flushTable (flushQuote (flushOrderedList (flushList (flushPara st))))
    let p := FormatInline (trimSpace (line.drop 3)) st1.imageCount
    { st1 with buf := st1.buf ++ str "<h2>" ++ p.1 ++ str "</h2>", imageCount := p.2 }
  else if (str "### ").isPrefixOf line then
    let st1 := flushTable (flushQuote (flushOrderedList (flushList (flushPara st))))
    let p := FormatInline (trimSpace (line.drop 4)) st1.imageCount
    { st1 with buf := st1.buf ++ str "<h3>" ++ p.1 ++ str "</h3>", imageCount := p.2 }
  else if (str "|").isPrefixOf line then
    if st.inTable = false then
      let st1 := flushQuote (flushOrderedList (flushList (flushPara st)))
      let p := cellsOut (str "<th>") (str "</th>") (parseTableCells line) st1.imageCount
      { st1 with
        buf := st1.buf ++ str "<table>" ++ str "<thead><tr>" ++ p.1 ++ str "</tr></thead>"
        inTable := true
        imageCount := p.2 }
    else if isTableSeparator line then
      if st.tableHeaderDone then st
      else { st with buf := st.buf ++ str "<tbody>", tableHeaderDone := true }
    else
      let st1 :=
        if st.tableHeaderDone then st
        else { st with buf := st.buf ++ str "<tbody>", tableHeaderDone := true }
      let p := cellsOut (str "<td>") (str "</td>") (parseTableCells line) st1.imageCount
      { st1 with buf := st1.buf ++ str "<tr>" ++ p.1 ++ str "</tr>", imageCount := p.2 }
  else if (str "- ").isPrefixOf line then
    let st1 :=
      if st.inList then st
      else
        let s1 := flushTable (flushQuote (flushOrderedList (flushPara st)))
        { s1 with buf := s1.buf ++ str "<ul>", inList := true }
    let p := FormatInline (trimSpace (line.drop 2)) st1.imageCount
    { st1 with buf := st1.buf ++ str "<li>" ++ p.1 ++ str "</li>", imageCount := p.2 }
  else if orderedMatch line then
    let st1 :=
      if st.inOrderedList then st
      else
        let s1 := flushTable (flushQuote (flushList (flushPara st)))
        { s1 with buf := s1.buf ++ str "<ol>", inOrderedList := true }
    let p := FormatInline (trimSpace (stripOrdered line)) st1.imageCount
    { st1 with buf := st1.buf ++ str "<li>" ++ p.1 ++ str "</li>", imageCount := p.2 }
  else if (str "> ").isPrefixOf line then
    let st1 :=
      if st.inQuote then st
      else
        let s1 := flushTable (flushOrderedList (flushList (flushPara st)))
        { s1 with buf := s1.buf ++ str "<blockquote>", inQuote := true }
    let p := FormatInline (trimSpace (line.drop 2)) st1.imageCount
    { st1 with buf := st1.buf ++ p.1, imageCount := p.2 }
  else
    let st1 :=
      if st.inPara then { st with buf := st.buf ++ str " " }
      else
        let s1 := flushTable (flushQuote (flushOrderedList (flushList st)))
        { s1 with buf := s1.buf ++ str "<p>", inPara := true }
    let p := FormatInline (trimSpace line) st1.imageCount
    { st1 with buf := st1.buf ++ p.1 ++ ['\n'], imageCount := p.2 }

/-- One iteration of the `for _, raw := range lines` loop (lines 98-99):
trim trailing carriage returns, then dispatch. -/
def stepLine (st : RState) (raw : List Char) : RState := stepCore st (trimRightCR raw)

/-- The end-of-document flush sequence (lines 257-262). -/
def finalFlush (st : RState) : RState :=
  flushCode (flushTable (flushQuote (flushOrderedList (flushList (flushPara st)))))

/-- `RenderMarkdown` (lines 40-263): split on newlines, scan line by line,
flush at the end. -/
def RenderMarkdown (md : List Char) : List Char :=
  (finalFlush (List.foldl stepLine initRState (splitOnChar '\n' md))).buf

/-- Index of the leftmost occurrence of `pat` in `l` (Go `strings.Index`). -/
def firstIdxOfSub? (pat l : List Char) : Option Nat :=
  (splitAtSub? pat l).map (fun p => p.1.length)

/-- A character that can occur inside a placeholder token `phTok n`. -/
def tokChar (c : Char) : Bool := c = nulC || c = 'I' || c = 'C' || c.isDigit

/-- `Toks i k l`: the string `l` consists of the placeholder tokens
`phTok i, …, phTok (k-1)`, in that order, separated (and surrounded) by
NUL-free segments.  This is the shape of the intermediate string of
`FormatInline` between inline-code extraction and restoration, for NUL-free
input. -/
inductive Toks : Nat → Nat → List Char → Prop
  | nil : ∀ i s, nulFree s → Toks i i s
  | cons : ∀ i k s l, nulFree s → Toks (i + 1) k l → Toks i k (s ++ phTok i ++ l)

/-- `InterNF cs out`: the string `out` interleaves the fragments `cs`, in
order, with NUL-free segments: `out = s₀ ++ c₀ ++ s₁ ++ c₁ ++ … ++ sₙ`.
This expresses that each recorded fragment reappears exactly at the position
of its own placeholder and that no placeholder (NUL) material survives
around them. -/
inductive InterNF : List (List Char) → List Char → Prop
  | nil : ∀ s, nulFree s → InterNF [] s
  | cons : ∀ c cs s l, nulFree s → InterNF cs l → InterNF (c :: cs) (s ++ c ++ l)

/-! ### Basic lemmas about the string model -/

theorem splitOnChar_ne_nil (sep : Char) (l : List Char) : splitOnChar sep l ≠ [] := by
  cases l with
  | nil => simp [splitOnChar]
  | cons c t =>
    simp only [splitOnChar]
    cases h : splitOnChar sep t with
    | nil => simp
    | cons a b =>
      by_cases hc : c = sep
      · simp [hc]
      · simp [hc]

theorem splitOnChar_length (sep : Char) :
    ∀ l : List Char,
      (splitOnChar sep l).length = (l.filter (fun c => c = sep)).length + 1 := by
  intro l
  induction l with
  | nil => simp [splitOnChar]
  | cons c t ih =>
    simp only [splitOnChar]
    cases h : splitOnChar sep t with
    | nil => exact absurd h (splitOnChar_ne_nil sep t)
    | cons a b =>
      rw [h] at ih
      by_cases hc : c = sep
      · simp [hc] at ih ⊢
        omega
      · simp [hc] at ih ⊢
        omega

theorem escChar_no_lt (c : Char) : '<' ∉ escChar c := by
  unfold escChar
  split_ifs with h1 h2 h3 h4 h5
  · decide
  · decide
  · decide
  · decide
  · decide
  · simp only [List.mem_singleton]
    exact fun h => h3 h.symm

theorem escChar_no_gt (c : Char) : '>' ∉ escChar c := by
  unfold escChar
  split_ifs with h1 h2 h3 h4 h5
  · decide
  · decide
  · decide
  · decide
  · decide
  · simp only [List.mem_singleton]
    exact fun h => h4 h.symm

theorem escapeString_no_lt (s : List Char) : '<' ∉ escapeString s := by
  intro h
  rw [escapeString, List.mem_flatMap] at h
  obtain ⟨a, _, ha⟩ := h
  exact escChar_no_lt a ha

theorem escapeString_no_gt (s : List Char) : '>' ∉ escapeString s := by
  intro h
  rw [escapeString, List.mem_flatMap] at h
  obtain ⟨a, _, ha⟩ := h
  exact escChar_no_gt a ha

theorem not_infix_of_not_mem {pat l : List Char} (c : Char) (hc : c ∈ pat)
    (h : c ∉ l) : ¬ pat <:+: l := by
  intro hinf
  obtain ⟨u, v, rfl⟩ := hinf
  exact h (by simp [hc])

/-! ### C8 -/

/-- C8: the renderer is total and terminating: `RenderMarkdown` is the final
flush of a fold of the per-line step function over the finite newline-split
of the input, and the number of loop iterations is the newline count plus
one, hence at most the input length plus one. -/
theorem c8_total_terminating : ∀ md : List Char,
    RenderMarkdown md =
      (finalFlush (List.foldl stepLine initRState (splitOnChar '\n' md))).buf ∧
    (splitOnChar '\n' md).length = (md.filter (fun c => c = '\n')).length + 1 ∧
    (splitOnChar '\n' md).length ≤ md.length + 1 := by
  intro md
  refine ⟨rfl, splitOnChar_length '\n' md, ?_⟩
  have h1 := splitOnChar_length '\n' md
  have h2 : (md.filter (fun c => c = '\n')).length ≤ md.length :=
    List.length_filter_le _ _
  omega

/-! ### C1 -/

/-- C1: escaping dominates substitution.  On the inline path, `FormatInline`
escapes the whole line before any substitution (its output depends on the
input only through `escapeString`), and the escaped text contains no raw `<`
or `>` — in particular never a literal `<script>`.  On the fenced-code path,
every line inside an open code block is emitted HTML-escaped verbatim,
followed by a newline. -/
theorem c1_escaping_dominates :
    (∀ s t cnt, escapeString s = escapeString t → FormatInline s cnt = FormatInline t cnt) ∧
    (∀ s : List Char, '<' ∉ escapeString s ∧ '>' ∉ escapeString s ∧
      ¬ (str "<script>") <:+: escapeString s) ∧
    (∀ (st : RState) (raw : List Char), st.inCode = true →
      (str "```").isPrefixOf (trimRightCR raw) = false →
      stepLine st raw =
        { st with buf := st.buf ++ escapeString (trimRightCR raw) ++ ['\n'] }) := by
  refine ⟨?_, ?_, ?_⟩
  · intro s t cnt h
    simp only [FormatInline, inlineCodeFragments]
    rw [h]
  · intro s
    refine ⟨escapeString_no_lt s, escapeString_no_gt s, ?_⟩
    exact not_infix_of_not_mem '<' (by decide) (escapeString_no_lt s)
  · intro st raw h1 h2
    simp [stepLine, stepCore, h1, h2]

/-- Witness for C1 at concrete inputs. -/
theorem c1_escaping_dominates_witness :
    FormatInline (str "hi *x*") 0 = FormatInline (str "hi *x*") 0 ∧
    stepLine { initRState with inCode := true } (str "<script>alert(1)</script>") =
      { { initRState with inCode := true } with
        buf := ({ initRState with inCode := true } : RState).buf ++
          escapeString (trimRightCR (str "<script>alert(1)</script>")) ++ ['\n'] } :=
  ⟨c1_escaping_dominates.1 (str "hi *x*") (str "hi *x*") 0 rfl,
   c1_escaping_dominates.2.2 _ _ rfl (by decide)⟩

theorem isPrefixOf_append_self (p t : List Char) : p.isPrefixOf (p ++ t) = true := by
  induction p with
  | nil => simp
  | cons c cs ih => simp [List.isPrefixOf_cons₂, ih]

theorem trimSpace_cons_ne_nil {c : Char} (l : List Char) (h : isGoSpace c = false) :
    trimSpace (c :: l) ≠ [] := by
  unfold trimSpace
  rw [List.dropWhile_cons]
  simp only [h]
  intro hnil
  rw [List.reverse_eq_nil_iff, List.dropWhile_eq_nil_iff] at hnil
  have := hnil c (by simp)
  simp [h] at this

@[simp] theorem flushPara_imageCount (st : RState) :
    (flushPara st).imageCount = st.imageCount := by unfold flushPara; split <;> rfl
@[simp] theorem flushPara_inCode (st : RState) :
    (flushPara st).inCode = st.inCode := by unfold flushPara; split <;> rfl
@[simp] theorem flushPara_inQuote (st : RState) :
    (flushPara st).inQuote = st.inQuote := by unfold flushPara; split <;> rfl
@[simp] theorem flushPara_inList (st : RState) :
    (flushPara st).inList = st.inList := by unfold flushPara; split <;> rfl
@[simp] theorem flushPara_inOrderedList (st : RState) :
    (flushPara st).inOrderedList = st.inOrderedList := by unfold flushPara; split <;> rfl
@[simp] theorem flushPara_inTable (st : RState) :
    (flushPara st).inTable = st.inTable := by unfold flushPara; split <;> rfl
@[simp] theorem flushPara_codeLang (st : RState) :
    (flushPara st).codeLang = st.codeLang := by unfold flushPara; split <;> rfl
@[simp] theorem flushPara_tableHeaderDone (st : RState) :
    (flushPara st).tableHeaderDone = st.tableHeaderDone := by unfold flushPara; split <;> rfl
@[simp] theorem flushPara_inPara (st : RState) :
    (flushPara st).inPara = false := by
  unfold flushPara; split
  · rfl
  · simp_all

@[simp] theorem flushList_imageCount (st : RState) :
    (flushList st).imageCount = st.imageCount := by unfold flushList; split <;> rfl
@[simp] theorem flushList_inCode (st : RState) :
    (flushList st).inCode = st.inCode := by unfold flushList; split <;> rfl
@[simp] theorem flushList_inQuote (st : RState) :
    (flushList st).inQuote = st.inQuote := by unfold flushList; split <;> rfl
@[simp] theorem flushList_inPara (st : RState) :
    (flushList st).inPara = st.inPara := by unfold flushList; split <;> rfl
@[simp] theorem flushList_inOrderedList (st : RState) :
    (flushList st).inOrderedList = st.inOrderedList := by unfold flushList; split <;> rfl
@[simp] theorem flushList_inTable (st : RState) :
    (flushList st).inTable = st.inTable := by unfold flushList; split <;> rfl
@[simp] theorem flushList_codeLang (st : RState) :
    (flushList st).codeLang = st.codeLang := by unfold flushList; split <;> rfl
@[simp] theorem flushList_tableHeaderDone (st : RState) :
    (flushList st).tableHeaderDone = st.tableHeaderDone := by unfold flushList; split <;> rfl
@[simp] theorem flushList_inList (st : RState) :
    (flushList st).inList = false := by
  unfold flushList; split
  · rfl
  · simp_all

@[simp] theorem flushOrderedList_imageCount (st : RState) :
    (flushOrderedList st).imageCount = st.imageCount := by unfold flushOrderedList; split <;> rfl
@[simp] theorem flushOrderedList_inCode (st : RState) :
    (flushOrderedList st).inCode = st.inCode := by unfold flushOrderedList; split <;> rfl
@[simp] theorem flushOrderedList_inQuote (st : RState) :
    (flushOrderedList st).inQuote = st.inQuote := by unfold flushOrderedList; split <;> rfl
@[simp] theorem flushOrderedList_inPara (st : RState) :
    (flushOrderedList st).inPara = st.inPara := by unfold flushOrderedList; split <;> rfl
@[simp] theorem flushOrderedList_inList (st : RState) :
    (flushOrderedList st).inList = st.inList := by unfold flushOrderedList; split <;> rfl
@[simp] theorem flushOrderedList_inTable (st : RState) :
    (flushOrderedList st).inTable = st.inTable := by unfold flushOrderedList; split <;> rfl
@[simp] theorem flushOrderedList_codeLang (st : RState) :
    (flushOrderedList st).codeLang = st.codeLang := by unfold flushOrderedList; split <;> rfl
@[simp] theorem flushOrderedList_tableHeaderDone (st : RState) :
    (flushOrderedList st).tableHeaderDone = st.tableHeaderDone := by
  unfold flushOrderedList; split <;> rfl
@[simp] theorem flushOrderedList_inOrderedList (st : RState) :
    (flushOrderedList st).inOrderedList = false := by
  unfold flushOrderedList; split
  · rfl
  · simp_all

@[simp] theorem flushQuote_imageCount (st : RState) :
    (flushQuote st).imageCount = st.imageCount := by unfold flushQuote; split <;> rfl
@[simp] theorem flushQuote_inCode (st : RState) :
    (flushQuote st).inCode = st.inCode := by unfold flushQuote; split <;> rfl
@[simp] theorem flushQuote_inPara (st : RState) :
    (flushQuote st).inPara = st.inPara := by unfold flushQuote; split <;> rfl
@[simp] theorem flushQuote_inList (st : RState) :
    (flushQuote st).inList = st.inList := by unfold flushQuote; split <;> rfl
@[simp] theorem flushQuote_inOrderedList (st : RState) :
    (flushQuote st).inOrderedList = st.inOrderedList := by unfold flushQuote; split <;> rfl
@[simp] theorem flushQuote_inTable (st : RState) :
    (flushQuote st).inTable = st.inTable := by unfold flushQuote; split <;> rfl
@[simp] theorem flushQuote_codeLang (st : RState) :
    (flushQuote st).codeLang = st.codeLang := by unfold flushQuote; split <;> rfl
@[simp] theorem flushQuote_tableHeaderDone (st : RState) :
    (flushQuote st).tableHeaderDone = st.tableHeaderDone := by unfold flushQuote; split <;> rfl
@[simp] theorem flushQuote_inQuote (st : RState) :
    (flushQuote st).inQuote = false := by
  unfold flushQuote; split
  · rfl
  · simp_all

@[simp] theorem flushTable_imageCount (st : RState) :
    (flushTable st).imageCount = st.imageCount := by unfold flushTable; split <;> rfl
@[simp] theorem flushTable_inCode (st : RState) :
    (flushTable st).inCode = st.inCode := by unfold flushTable; split <;> rfl
@[simp] theorem flushTable_inPara (st : RState) :
    (flushTable st).inPara = st.inPara := by unfold flushTable; split <;> rfl
@[simp] theorem flushTable_inList (st : RState) :
    (flushTable st).inList = st.inList := by unfold flushTable; split <;> rfl
@[simp] theorem flushTable_inOrderedList (st : RState) :
    (flushTable st).inOrderedList = st.inOrderedList := by unfold flushTable; split <;> rfl
@[simp] theorem flushTable_inQuote (st : RState) :
    (flushTable st).inQuote = st.inQuote := by unfold flushTable; split <;> rfl
@[simp] theorem flushTable_codeLang (st : RState) :
    (flushTable st).codeLang = st.codeLang := by unfold flushTable; split <;> rfl
@[simp] theorem flushTable_inTable (st : RState) :
    (flushTable st).inTable = false := by
  unfold flushTable; split
  · rfl
  · simp_all
@[simp] theorem flushTable_tableHeaderDone (st : RState) :
    (flushTable st).tableHeaderDone = (!st.inTable && st.tableHeaderDone) := by
  unfold flushTable; split <;> simp_all

/-! ### C10 -/

/-- C10: every line whose text begins with the three characters `---` — not
only the exact line `---` — renders as exactly `<hr/>` after flushing the
open paragraph, list, ordered-list, quote and table contexts; everything
after the `---` prefix is discarded (the result does not depend on `rest`),
provided no code block is open. -/
theorem c10_hr_prefix : ∀ (st : RState) (rest : List Char), st.inCode = false →
    stepCore st ('-' :: '-' :: '-' :: rest) =
      { flushTable (flushQuote (flushOrderedList (flushList (flushPara st)))) with
        buf := (flushTable (flushQuote (flushOrderedList (flushList (flushPara st))))).buf ++
          str "<hr/>" } := by
  intro st rest h
  have hfence : (str "```").isPrefixOf ('-' :: '-' :: '-' :: rest) = false := rfl
  have hhr : (str "---").isPrefixOf ('-' :: '-' :: '-' :: rest) = true :=
    isPrefixOf_append_self (str "---") rest
  have hblank : trimSpace ('-' :: '-' :: '-' :: rest) ≠ [] :=
    trimSpace_cons_ne_nil _ (by decide)
  simp [stepCore, h, hfence, hhr, hblank]

/-- Witness for C10: a `---` line with trailing words, rendered with a table
open, emits the table closers and exactly `<hr/>`. -/
theorem c10_hr_prefix_witness :
    stepCore { initRState with inTable := true } (str "--- trailing words") =
      { flushTable (flushQuote (flushOrderedList (flushList (flushPara
          { initRState with inTable := true })))) with
        buf := (flushTable (flushQuote (flushOrderedList (flushList (flushPara
          { initRState with inTable := true }))))).buf ++ str "<hr/>" } :=
  c10_hr_prefix { initRState with inTable := true } (str " trailing words") rfl

/-! ### Per-branch equations of the block scanner -/

theorem stepFenceClose_eq (st : RState) (line : List Char) (h : st.inCode = true)
    (hF : (str "```").isPrefixOf line = true) : stepCore st line = flushCode st := by
  simp [stepCore, h, hF]

theorem stepFenceOpen_eq (st : RState) (line : List Char) (h : st.inCode = false)
    (hF : (str "```").isPrefixOf line = true) :
    stepCore st line =
      (let st1 := flushQuote (flushOrderedList (flushList (flushPara st)))
       let lang := trimSpace (line.drop 3)
       if lang = [] then
         { st1 with
           buf := st1.buf ++ str "<pre class=\"code-block\"><code>"
           inCode := true
           inPara := true }
       else
         { st1 with
           buf := st1.buf ++ str "<div class=\"code-block-wrapper\"><span class=\"code-lang code-lang-" ++
             escapeString lang ++ str "\">" ++ escapeString lang ++ str "</span>" ++
             str "<pre class=\"code-block\"><code class=\"language-" ++ escapeString lang ++ str "\">"
           codeLang := true
           inCode := true
           inPara := true }) := by
  simp [stepCore, h, hF]

theorem stepBlank_eq (st : RState) (line : List Char) (h : st.inCode = false)
    (hF : (str "```").isPrefixOf line = false) (hB : trimSpace line = []) :
    stepCore st line = flushTable (flushQuote (flushOrderedList (flushList (flushPara st)))) := by
  simp [stepCore, h, hF, hB]

theorem stepHr_eq (st : RState) (rest : List Char) (h : st.inCode = false) :
    stepCore st ('-' :: '-' :: '-' :: rest) =
      { flushTable (flushQuote (flushOrderedList (flushList (flushPara st)))) with
        buf := (flushTable (flushQuote (flushOrderedList (flushList (flushPara st))))).buf ++
          str "<hr/>" } := by
  have hfence : (str "```").isPrefixOf ('-' :: '-' :: '-' :: rest) = false := rfl
  have hhr : (str "---").isPrefixOf ('-' :: '-' :: '-' :: rest) = true :=
    isPrefixOf_append_self (str "---") rest
  have hblank : trimSpace ('-' :: '-' :: '-' :: rest) ≠ [] :=
    trimSpace_cons_ne_nil _ (by decide)
  simp [stepCore, h, hfence, hhr, hblank]

theorem stepH1_eq (st : RState) (r : List Char) (h : st.inCode = false) :
    stepCore st ('#' :: ' ' :: r) =
      { flushTable (flushQuote (flushOrderedList (flushList (flushPara st)))) with
        buf := (flushTable (flushQuote (flushOrderedList (flushList (flushPara st))))).buf ++
          str "<h1>" ++ (FormatInline (trimSpace r) st.imageCount).1 ++ str "</h1>"
        imageCount := (FormatInline (trimSpace r) st.imageCount).2 } := by
  have hfence : (str "```").isPrefixOf ('#' :: ' ' :: r) = false := rfl
  have hhr : (str "---").isPrefixOf ('#' :: ' ' :: r) = false := rfl
  have hh1 : (str "# ").isPrefixOf ('#' :: ' ' :: r) = true :=
    isPrefixOf_append_self (str "# ") r
  have hblank : trimSpace ('#' :: ' ' :: r) ≠ [] :=
    trimSpace_cons_ne_nil _ (by decide)
  simp [stepCore, h, hfence, hhr, hh1, hblank]

theorem stepH2_eq (st : RState) (r : List Char) (h : st.inCode = false) :
    stepCore st ('#' :: '#' :: ' ' :: r) =
      { flushTable (flushQuote (flushOrderedList (flushList (flushPara st)))) with
        buf := (flushTable (flushQuote (flushOrderedList (flushList (flushPara st))))).buf ++
          str "<h2>" ++ (FormatInline (trimSpace r) st.imageCount).1 ++ str "</h2>"
        imageCount := (FormatInline (trimSpace r) st.imageCount).2 } := by
  have hfence : (str "```").isPrefixOf ('#' :: '#' :: ' ' :: r) = false := rfl
  have hhr : (str "---").isPrefixOf ('#' :: '#' :: ' ' :: r) = false := rfl
  have hh1 : (str "# ").isPrefixOf ('#' :: '#' :: ' ' :: r) = false := rfl
  have hh2 : (str "## ").isPrefixOf ('#' :: '#' :: ' ' :: r) = true :=
    isPrefixOf_append_self (str "## ") r
  have hblank : trimSpace ('#' :: '#' :: ' ' :: r) ≠ [] :=
    trimSpace_cons_ne_nil _ (by decide)
  simp [stepCore, h, hfence, hhr, hh1, hh2, hblank]

theorem stepH3_eq (st : RState) (r : List Char) (h : st.inCode = false) :
    stepCore st ('#' :: '#' :: '#' :: ' ' :: r) =
      { flushTable (flushQuote (flushOrderedList (flushList (flushPara st)))) with
        buf := (flushTable (flushQuote (flushOrderedList (flushList (flushPara st))))).buf ++
          str "<h3>" ++ (FormatInline (trimSpace r) st.imageCount).1 ++ str "</h3>"
        imageCount := (FormatInline (trimSpace r) st.imageCount).2 } := by
  have hfence : (str "```").isPrefixOf ('#' :: '#' :: '#' :: ' ' :: r) = false := rfl
  have hhr : (str "---").isPrefixOf ('#' :: '#' :: '#' :: ' ' :: r) = false := rfl
  have hh1 : (str "# ").isPrefixOf ('#' :: '#' :: '#' :: ' ' :: r) = false := rfl
  have hh2 : (str "## ").isPrefixOf ('#' :: '#' :: '#' :: ' ' :: r) = false := rfl
  have hh3 : (str "### ").isPrefixOf ('#' :: '#' :: '#' :: ' ' :: r) = true :=
    isPrefixOf_append_self (str "### ") r
  have hblank : trimSpace ('#' :: '#' :: '#' :: ' ' :: r) ≠ [] :=
    trimSpace_cons_ne_nil _ (by decide)
  simp [stepCore, h, hfence, hhr, hh1, hh2, hh3, hblank]

theorem stepTableOpen_eq (st : RState) (r : List Char) (h : st.inCode = false)
    (hT : st.inTable = false) :
    stepCore st ('|' :: r) =
      { flushQuote (flushOrderedList (flushList (flushPara st))) with
        buf := (flushQuote (flushOrderedList (flushList (flushPara st)))).buf ++
          str "<table>" ++ str "<thead><tr>" ++
          (cellsOut (str "<th>") (str "</th>") (parseTableCells ('|' :: r)) st.imageCount).1 ++
          str "</tr></thead>"
        inTable := true
        imageCount :=
          (cellsOut (str "<th>") (str "</th>") (parseTableCells ('|' :: r)) st.imageCount).2 } := by
  have hfence : (str "```").isPrefixOf ('|' :: r) = false := rfl
  have hhr : (str "---").isPrefixOf ('|' :: r) = false := rfl
  have hh1 : (str "# ").isPrefixOf ('|' :: r) = false := rfl
  have hh2 : (str "## ").isPrefixOf ('|' :: r) = false := rfl
  have hh3 : (str "### ").isPrefixOf ('|' :: r) = false := rfl
  have hp : (str "|").isPrefixOf ('|' :: r) = true := isPrefixOf_append_self (str "|") r
  have hblank : trimSpace ('|' :: r) ≠ [] := trimSpace_cons_ne_nil _ (by decide)
  simp [stepCore, h, hfence, hhr, hh1, hh2, hh3, hp, hblank, hT]

theorem stepUl_eq (st : RState) (r : List Char) (h : st.inCode = false) :
    stepCore st ('-' :: ' ' :: r) =
      (let st1 :=
        if st.inList then st
        else
          { flushTable (flushQuote (flushOrderedList (flushPara st))) with
            buf := (flushTable (flushQuote (flushOrderedList (flushPara st)))).buf ++ str "<ul>"
            inList := true }
       { st1 with
         buf := st1.buf ++ str "<li>" ++ (FormatInline (trimSpace r) st1.imageCount).1 ++ str "</li>"
         imageCount := (FormatInline (trimSpace r) st1.imageCount).2 }) := by
  have hfence : (str "```").isPrefixOf ('-' :: ' ' :: r) = false := rfl
  have hhr : (str "---").isPrefixOf ('-' :: ' ' :: r) = false := rfl
  have hh1 : (str "# ").isPrefixOf ('-' :: ' ' :: r) = false := rfl
  have hh2 : (str "## ").isPrefixOf ('-' :: ' ' :: r) = false := rfl
  have hh3 : (str "### ").isPrefixOf ('-' :: ' ' :: r) = false := rfl
  have hp : (str "|").isPrefixOf ('-' :: ' ' :: r) = false := rfl
  have hu : (str "- ").isPrefixOf ('-' :: ' ' :: r) = true :=
    isPrefixOf_append_self (str "- ") r
  have hblank : trimSpace ('-' :: ' ' :: r) ≠ [] := trimSpace_cons_ne_nil _ (by decide)
  simp [stepCore, h, hfence, hhr, hh1, hh2, hh3, hp, hu, hblank]

theorem stepOl_eq (st : RState) (line : List Char) (h : st.inCode = false)
    (hF : (str "```").isPrefixOf line = false) (hB : trimSpace line ≠ [])
    (hHr : (str "---").isPrefixOf line = false)
    (h1 : (str "# ").isPrefixOf line = false) (h2 : (str "## ").isPrefixOf line = false)
    (h3 : (str "### ").isPrefixOf line = false) (hp : (str "|").isPrefixOf line = false)
    (hu : (str "- ").isPrefixOf line = false) (hOrd : orderedMatch line = true) :
    stepCore st line =
      (let st1 :=
        if st.inOrderedList then st
        else
          { flushTable (flushQuote (flushList (flushPara st))) with
            buf := (flushTable (flushQuote (flushList (flushPara st)))).buf ++ str "<ol>"
            inOrderedList := true }
       { st1 with
         buf := st1.buf ++ str "<li>" ++
           (FormatInline (trimSpace (stripOrdered line)) st1.imageCount).1 ++ str "</li>"
         imageCount := (FormatInline (trimSpace (stripOrdered line)) st1.imageCount).2 }) := by
  simp [stepCore, h, hF, hB, hHr, h1, h2, h3, hp, hu, hOrd]

theorem stepQuote_eq (st : RState) (a : List Char) (h : st.inCode = false) :
    stepCore st ('>' :: ' ' :: a) =
      (let st1 :=
        if st.inQuote then st
        else
          { flushTable (flushOrderedList (flushList (flushPara st))) with
            buf := (flushTable (flushOrderedList (flushList (flushPara st)))).buf ++
              str "<blockquote>"
            inQuote := true }
       { st1 with
         buf := st1.buf ++ (FormatInline (trimSpace a) st1.imageCount).1
         imageCount := (FormatInline (trimSpace a) st1.imageCount).2 }) := by
  have hfence : (str "```").isPrefixOf ('>' :: ' ' :: a) = false := rfl
  have hhr : (str "---").isPrefixOf ('>' :: ' ' :: a) = false := rfl
  have hh1 : (str "# ").isPrefixOf ('>' :: ' ' :: a) = false := rfl
  have hh2 : (str "## ").isPrefixOf ('>' :: ' ' :: a) = false := rfl
  have hh3 : (str "### ").isPrefixOf ('>' :: ' ' :: a) = false := rfl
  have hp : (str "|").isPrefixOf ('>' :: ' ' :: a) = false := rfl
  have hu : (str "- ").isPrefixOf ('>' :: ' ' :: a) = false := rfl
  have hq : (str "> ").isPrefixOf ('>' :: ' ' :: a) = true :=
    isPrefixOf_append_self (str "> ") a
  have hOrd : orderedMatch ('>' :: ' ' :: a) = false := by simp [orderedMatch]
  have hblank : trimSpace ('>' :: ' ' :: a) ≠ [] := trimSpace_cons_ne_nil _ (by decide)
  simp [stepCore, h, hfence, hhr, hh1, hh2, hh3, hp, hu, hq, hOrd, hblank]

theorem stepPara_eq (st : RState) (line : List Char) (h : st.inCode = false)
    (hF : (str "```").isPrefixOf line = false) (hB : trimSpace line ≠ [])
    (hHr : (str "---").isPrefixOf line = false)
    (h1 : (str "# ").isPrefixOf line = false) (h2 : (str "## ").isPrefixOf line = false)
    (h3 : (str "### ").isPrefixOf line = false) (hp : (str "|").isPrefixOf line = false)
    (hu : (str "- ").isPrefixOf line = false) (hOrd : orderedMatch line = false)
    (hq : (str "> ").isPrefixOf line = false) :
    stepCore st line =
      (let st1 :=
        if st.inPara then { st with buf := st.buf ++ str " " }
        else
          { flushTable (flushQuote (flushOrderedList (flushList st))) with
            buf := (flushTable (flushQuote (flushOrderedList (flushList st)))).buf ++ str "<p>"
            inPara := true }
       { st1 with
         buf := st1.buf ++ (FormatInline (trimSpace line) st1.imageCount).1 ++ ['\n']
         imageCount := (FormatInline (trimSpace line) st1.imageCount).2 }) := by
  simp [stepCore, h, hF, hB, hHr, h1, h2, h3, hp, hu, hOrd, hq]

/-! ### C9 -/

/-- C9: consecutive blockquote lines run together with no separator: for two
adjacent lines each starting with `> `, the two formatted contents are
emitted directly adjacent (no space, newline, or per-line wrapper between
them) inside a single `<blockquote>` element, which is opened — after
flushing paragraph, list, ordered list and table — only if no quote was
already open. -/
theorem c9_blockquote_adjacent : ∀ (st : RState) (a b : List Char), st.inCode = false →
    stepCore (stepCore st ('>' :: ' ' :: a)) ('>' :: ' ' :: b) =
      (if st.inQuote then
        { st with
          buf := st.buf ++ (FormatInline (trimSpace a) st.imageCount).1 ++
            (FormatInline (trimSpace b) (FormatInline (trimSpace a) st.imageCount).2).1
          imageCount := (FormatInline (trimSpace b) (FormatInline (trimSpace a) st.imageCount).2).2 }
      else
        { flushTable (flushOrderedList (flushList (flushPara st))) with
          buf := (flushTable (flushOrderedList (flushList (flushPara st)))).buf ++
            str "<blockquote>" ++ (FormatInline (trimSpace a) st.imageCount).1 ++
            (FormatInline (trimSpace b) (FormatInline (trimSpace a) st.imageCount).2).1
          inQuote := true
          imageCount :=
            (FormatInline (trimSpace b) (FormatInline (trimSpace a) st.imageCount).2).2 }) := by
  intro st a b h
  rw [stepQuote_eq st a h]
  by_cases hq : st.inQuote
  · simp only [hq, if_true]
    rw [stepQuote_eq _ b (by simp [h])]
    simp [hq, List.append_assoc]
  · simp only [hq, if_false]
    rw [stepQuote_eq _ b (by simp [h])]
    simp [hq, List.append_assoc]

/-- Witness for C9 at a concrete state and concrete lines. -/
theorem c9_blockquote_adjacent_witness :
    stepCore (stepCore { initRState with inPara := true } ('>' :: ' ' :: str "alpha"))
        ('>' :: ' ' :: str "beta") =
      { flushTable (flushOrderedList (flushList (flushPara { initRState with inPara := true }))) with
        buf := (flushTable (flushOrderedList (flushList (flushPara
            { initRState with inPara := true })))).buf ++
          str "<blockquote>" ++
          (FormatInline (trimSpace (str "alpha")) initRState.imageCount).1 ++
          (FormatInline (trimSpace (str "beta"))
            (FormatInline (trimSpace (str "alpha")) initRState.imageCount).2).1
        inQuote := true
        imageCount :=
          (FormatInline (trimSpace (str "beta"))
            (FormatInline (trimSpace (str "alpha")) initRState.imageCount).2).2 } :=
  c9_blockquote_adjacent { initRState with inPara := true } (str "alpha") (str "beta") rfl

/-! ### C4 -/

set_option maxRecDepth 10000 in
/-- C4 counterexample: the claim says that opening a fenced code block while
a table is open closes the table first.  On input `"|a|\n```\nx\n```"` the
fence opens while the table is open, the `inTable` flag survives the fence
line, and in the rendered output `</table>` appears only after `<pre` (the
table is closed by the final flush, after the code block), so the claim is
false as stated. -/
theorem c4_counterexample :
    (stepCore (stepCore initRState (str "|a|")) (str "```")).inTable = true ∧
    (firstIdxOfSub? (str "</table>") (RenderMarkdown (str "|a|\n```\nx\n```"))).isSome = true ∧
    (firstIdxOfSub? (str "<pre") (RenderMarkdown (str "|a|\n```\nx\n```"))).getD 0 <
      (firstIdxOfSub? (str "</table>") (RenderMarkdown (str "|a|\n```\nx\n```"))).getD 0 := by
  decide

/-- C4 (amended): every block-opening transition except the opening code
fence first flushes all other currently open incompatible contexts (their
closing markup is emitted and their flags reset) before the new context's
opening markup; the opening code fence flushes the paragraph, list,
ordered-list and blockquote contexts but does not flush an open table (its
`inTable` and `tableHeaderDone` flags survive unchanged). -/
theorem c4_flush_discipline :
    (∀ (st : RState) (line : List Char), st.inCode = false →
      (str "```").isPrefixOf line = true →
      ((stepCore st line).inTable = st.inTable ∧
       (stepCore st line).tableHeaderDone = st.tableHeaderDone ∧
       stepCore st line =
        (let st1 := flushQuote (flushOrderedList (flushList (flushPara st)))
         let lang := trimSpace (line.drop 3)
         if lang = [] then
           { st1 with
             buf := st1.buf ++ str "<pre class=\"code-block\"><code>"
             inCode := true
             inPara := true }
         else
           { st1 with
             buf := st1.buf ++ str "<div class=\"code-block-wrapper\"><span class=\"code-lang code-lang-" ++
               escapeString lang ++ str "\">" ++ escapeString lang ++ str "</span>" ++
               str "<pre class=\"code-block\"><code class=\"language-" ++ escapeString lang ++ str "\">"
             codeLang := true
             inCode := true
             inPara := true }))) ∧
    (∀ (st : RState) (r : List Char), st.inCode = false →
      stepCore st ('#' :: ' ' :: r) =
        { flushTable (flushQuote (flushOrderedList (flushList (flushPara st)))) with
          buf := (flushTable (flushQuote (flushOrderedList (flushList (flushPara st))))).buf ++
            str "<h1>" ++ (FormatInline (trimSpace r) st.imageCount).1 ++ str "</h1>"
          imageCount := (FormatInline (trimSpace r) st.imageCount).2 }) ∧
    (∀ (st : RState) (r : List Char), st.inCode = false →
      stepCore st ('#' :: '#' :: ' ' :: r) =
        { flushTable (flushQuote (flushOrderedList (flushList (flushPara st)))) with
          buf := (flushTable (flushQuote (flushOrderedList (flushList (flushPara st))))).buf ++
            str "<h2>" ++ (FormatInline (trimSpace r) st.imageCount).1 ++ str "</h2>"
          imageCount := (FormatInline (trimSpace r) st.imageCount).2 }) ∧
    (∀ (st : RState) (r : List Char), st.inCode = false →
      stepCore st ('#' :: '#' :: '#' :: ' ' :: r) =
        { flushTable (flushQuote (flushOrderedList (flushList (flushPara st)))) with
          buf := (flushTable (flushQuote (flushOrderedList (flushList (flushPara st))))).buf ++
            str "<h3>" ++ (FormatInline (trimSpace r) st.imageCount).1 ++ str "</h3>"
          imageCount := (FormatInline (trimSpace r) st.imageCount).2 }) ∧
    (∀ (st : RState) (rest : List Char), st.inCode = false →
      stepCore st ('-' :: '-' :: '-' :: rest) =
        { flushTable (flushQuote (flushOrderedList (flushList (flushPara st)))) with
          buf := (flushTable (flushQuote (flushOrderedList (flushList (flushPara st))))).buf ++
            str "<hr/>" }) ∧
    (∀ (st : RState) (r : List Char), st.inCode = false → st.inTable = false →
      stepCore st ('|' :: r) =
        { flushQuote (flushOrderedList (flushList (flushPara st))) with
          buf := (flushQuote (flushOrderedList (flushList (flushPara st)))).buf ++
            str "<table>" ++ str "<thead><tr>" ++
            (cellsOut (str "<th>") (str "</th>") (parseTableCells ('|' :: r)) st.imageCount).1 ++
            str "</tr></thead>"
          inTable := true
          imageCount :=
            (cellsOut (str "<th>") (str "</th>") (parseTableCells ('|' :: r)) st.imageCount).2 }) ∧
    (∀ (st : RState) (r : List Char), st.inCode = false → st.inList = false →
      stepCore st ('-' :: ' ' :: r) =
        (let st1 := { flushTable (flushQuote (flushOrderedList (flushPara st))) with
            buf := (flushTable (flushQuote (flushOrderedList (flushPara st)))).buf ++ str "<ul>"
            inList := true }
         { st1 with
           buf := st1.buf ++ str "<li>" ++ (FormatInline (trimSpace r) st1.imageCount).1 ++
             str "</li>"
           imageCount := (FormatInline (trimSpace r) st1.imageCount).2 })) ∧
    (∀ (st : RState) (line : List Char), st.inCode = false →
      (str "```").isPrefixOf line = false → trimSpace line ≠ [] →
      (str "---").isPrefixOf line = false →
      (str "# ").isPrefixOf line = false → (str "## ").isPrefixOf line = false →
      (str "### ").isPrefixOf line = false → (str "|").isPrefixOf line = false →
      (str "- ").isPrefixOf line = false → orderedMatch line = true →
      st.inOrderedList = false →
      stepCore st line =
        (let st1 := { flushTable (flushQuote (flushList (flushPara st))) with
            buf := (flushTable (flushQuote (flushList (flushPara st)))).buf ++ str "<ol>"
            inOrderedList := true }
         { st1 with
           buf := st1.buf ++ str "<li>" ++
             (FormatInline (trimSpace (stripOrdered line)) st1.imageCount).1 ++ str "</li>"
           imageCount := (FormatInline (trimSpace (stripOrdered line)) st1.imageCount).2 })) ∧
    (∀ (st : RState) (a : List Char), st.inCode = false → st.inQuote = false →
      stepCore st ('>' :: ' ' :: a) =
        (let st1 := { flushTable (flushOrderedList (flushList (flushPara st))) with
            buf := (flushTable (flushOrderedList (flushList (flushPara st)))).buf ++
              str "<blockquote>"
            inQuote := true }
         { st1 with
           buf := st1.buf ++ (FormatInline (trimSpace a) st1.imageCount).1
           imageCount := (FormatInline (trimSpace a) st1.imageCount).2 })) ∧
    (∀ (st : RState) (line : List Char), st.inCode = false →
      (str "```").isPrefixOf line = false → trimSpace line ≠ [] →
      (str "---").isPrefixOf line = false →
      (str "# ").isPrefixOf line = false → (str "## ").isPrefixOf line = false →
      (str "### ").isPrefixOf line = false → (str "|").isPrefixOf line = false →
      (str "- ").isPrefixOf line = false → orderedMatch line = false →
      (str "> ").isPrefixOf line = false → st.inPara = false →
      stepCore st line =
        (let st1 := { flushTable (flushQuote (flushOrderedList (flushList st))) with
            buf := (flushTable (flushQuote (flushOrderedList (flushList st)))).buf ++ str "<p>"
            inPara := true }
         { st1 with
           buf := st1.buf ++ (FormatInline (trimSpace line) st1.imageCount).1 ++ ['\n']
           imageCount := (FormatInline (trimSpace line) st1.imageCount).2 })) := by
  refine ⟨?_, ?_, ?_, ?_, ?_, ?_, ?_, ?_, ?_, ?_⟩
  · intro st line h hF
    refine ⟨?_, ?_, stepFenceOpen_eq st line h hF⟩
    · rw [stepFenceOpen_eq st line h hF]
      by_cases hl : trimSpace (line.drop 3) = [] <;> simp [hl]
    · rw [stepFenceOpen_eq st line h hF]
      by_cases hl : trimSpace (line.drop 3) = [] <;> simp [hl]
  · exact fun st r h => stepH1_eq st r h
  · exact fun st r h => stepH2_eq st r h
  · exact fun st r h => stepH3_eq st r h
  · exact fun st rest h => stepHr_eq st rest h
  · exact fun st r h hT => stepTableOpen_eq st r h hT
  · intro st r h hL
    rw [stepUl_eq st r h]
    simp [hL]
  · intro st line h hF hB hHr h1 h2 h3 hp hu hOrd hO
    rw [stepOl_eq st line h hF hB hHr h1 h2 h3 hp hu hOrd]
    simp [hO]
  · intro st a h hQ
    rw [stepQuote_eq st a h]
    simp [hQ]
  · intro st line h hF hB hHr h1 h2 h3 hp hu hOrd hq hP
    rw [stepPara_eq st line h hF hB hHr h1 h2 h3 hp hu hOrd hq]
    simp [hP]

set_option maxRecDepth 10000 in
/-- Witness for the amended C4: the fence conjunct at a state with an open
table (the table flags survive), and the ordered-list conjunct at a concrete
line. -/
theorem c4_flush_discipline_witness :
    ((stepCore { initRState with inTable := true } (str "```go")).inTable = true ∧
      (stepCore { initRState with inTable := true } (str "```go")).tableHeaderDone =
        ({ initRState with inTable := true } : RState).tableHeaderDone ∧
      stepCore { initRState with inTable := true } (str "```go") =
        (let st1 := flushQuote (flushOrderedList (flushList (flushPara
            { initRState with inTable := true })))
         let lang := trimSpace ((str "```go").drop 3)
         if lang = [] then
           { st1 with
             buf := st1.buf ++ str "<pre class=\"code-block\"><code>"
             inCode := true
             inPara := true }
         else
           { st1 with
             buf := st1.buf ++ str "<div class=\"code-block-wrapper\"><span class=\"code-lang code-lang-" ++
               escapeString lang ++ str "\">" ++ escapeString lang ++ str "</span>" ++
               str "<pre class=\"code-block\"><code class=\"language-" ++ escapeString lang ++ str "\">"
             codeLang := true
             inCode := true
             inPara := true })) ∧
    stepCore { initRState with inPara := true } (str "7. seven") =
      (let st1 := { flushTable (flushQuote (flushList (flushPara
          { initRState with inPara := true }))) with
          buf := (flushTable (flushQuote (flushList (flushPara
            { initRState with inPara := true })))).buf ++ str "<ol>"
          inOrderedList := true }
       { st1 with
         buf := st1.buf ++ str "<li>" ++
           (FormatInline (trimSpace (stripOrdered (str "7. seven"))) st1.imageCount).1 ++
           str "</li>"
         imageCount := (FormatInline (trimSpace (stripOrdered (str "7. seven"))) st1.imageCount).2 }) :=
  ⟨c4_flush_discipline.1 { initRState with inTable := true } (str "```go") rfl (by decide),
   c4_flush_discipline.2.2.2.2.2.2.2.1 { initRState with inPara := true } (str "7. seven") rfl
     (by decide) (by decide) (by decide) (by decide) (by decide) (by decide) (by decide)
     (by decide) (by decide) rfl⟩

/-! ### C7 -/

/-- C7: for every accepted image substitution the counter increases by one;
the image substituted at pre-increment counter value 0 carries
`fetchpriority="high"` and every later one carries `loading="eager"` (the
attribute slot is one of exactly these two, never a lazy hint); width and
height default to 1024×768 when the size suffix is absent; and a render call
starts its scoped counter at 0. -/
theorem c7_image_loading :
    initRState.imageCount = 0 ∧
    (∀ (m : ImgMatch) (cnt : Nat), SafeURL m.url ≠ [] →
      (imgRepl m cnt).2 = cnt + 1 ∧
      (imgRepl m cnt).1 =
        str "<img " ++ (if cnt = 0 then str "fetchpriority=\"high\"" else str "loading=\"eager\"") ++
        str " width=\"" ++ (match m.size with | some p => p.1 | none => str "1024") ++
        str "\" height=\"" ++ (match m.size with | some p => p.2 | none => str "768") ++
        str "\" alt=\"" ++ m.alt ++ str "\" src=\"" ++ SafeURL m.url ++ str "\" style=\"" ++
        m.style ++ str "\" decoding=\"async\"/>" ∧
      (m.size = none →
        (imgRepl m cnt).1 =
          str "<img " ++ (if cnt = 0 then str "fetchpriority=\"high\"" else str "loading=\"eager\"") ++
          str " width=\"" ++ str "1024" ++ str "\" height=\"" ++ str "768" ++
          str "\" alt=\"" ++ m.alt ++ str "\" src=\"" ++ SafeURL m.url ++
          str "\" style=\"" ++ m.style ++ str "\" decoding=\"async\"/>")) := by
  refine ⟨rfl, ?_⟩
  intro m cnt h
  have h1 : ¬ SafeURL m.url = [] := h
  by_cases hc : cnt = 0
  · subst hc
    refine ⟨by simp [imgRepl, h1], by simp [imgRepl, h1], ?_⟩
    intro hs
    simp [imgRepl, h1, hs]
  · have h2 : ¬ (cnt + 1 = 1) := by omega
    refine ⟨by simp [imgRepl, h1], by simp [imgRepl, h1, h2, hc], ?_⟩
    intro hs
    simp [imgRepl, h1, h2, hc, hs]

/-- Witness for C7 at concrete accepted images with and without size. -/
theorem c7_image_loading_witness :
    (imgRepl ⟨str "a", str "/i.png", str "s", none⟩ 0).2 = 0 + 1 ∧
    (imgRepl ⟨str "a", str "/i.png", str "s", none⟩ 0).1 =
      str "<img " ++ (if 0 = 0 then str "fetchpriority=\"high\"" else str "loading=\"eager\"") ++
      str " width=\"" ++ str "1024" ++ str "\" height=\"" ++ str "768" ++
      str "\" alt=\"" ++ str "a" ++ str "\" src=\"" ++
      SafeURL (str "/i.png") ++ str "\" style=\"" ++ str "s" ++ str "\" decoding=\"async\"/>" :=
  ⟨(c7_image_loading.2 ⟨str "a", str "/i.png", str "s", none⟩ 0 (by decide)).1,
   (c7_image_loading.2 ⟨str "a", str "/i.png", str "s", none⟩ 0 (by decide)).2.2 rfl⟩

/-! ### C2 -/

set_option maxRecDepth 10000 in
/-- C2: a link or image whose URL the sanitizer rejects is replaced by its
visible text (link text, image alt text) alone, with the counter untouched;
concretely, `javascript:` constructs leave no `href`/`src`, no anchor and no
img element in the output. -/
theorem c2_rejected_url :
    (∀ (m : ImgMatch) (cnt : Nat), SafeURL m.url = [] → imgRepl m cnt = (m.alt, cnt)) ∧
    (∀ m : LinkMatch, SafeURL m.url = [] → linkRepl m = m.text) ∧
    FormatInline (str "[click](javascript:alert1)") 0 = (str "click", 0) ∧
    ¬ (str "href") <:+: (FormatInline (str "[click](javascript:alert1)") 0).1 ∧
    ¬ (str "<a") <:+: (FormatInline (str "[click](javascript:alert1)") 0).1 ∧
    FormatInline (str "![pic](javascript:alert1)\x7bs\x7d") 0 = (str "pic", 0) ∧
    ¬ (str "src") <:+: (FormatInline (str "![pic](javascript:alert1)\x7bs\x7d") 0).1 ∧
    ¬ (str "<img") <:+: (FormatInline (str "![pic](javascript:alert1)\x7bs\x7d") 0).1 := by
  refine ⟨?_, ?_, by decide, by decide, by decide, by decide, by decide, by decide⟩
  · intro m cnt h
    simp [imgRepl, h]
  · intro m h
    simp [linkRepl, h]

/-- Witness for C2 at concrete rejected constructs. -/
theorem c2_rejected_url_witness :
    imgRepl ⟨str "pic", str "javascript:alert1", str "s", none⟩ 3 = (str "pic", 3) ∧
    linkRepl ⟨str "click", str "data:text/html,x", false⟩ = str "click" :=
  ⟨c2_rejected_url.1 ⟨str "pic", str "javascript:alert1", str "s", none⟩ 3 (by decide),
   c2_rejected_url.2.1 ⟨str "click", str "data:text/html,x", false⟩ (by decide)⟩

/-! ### C6 -/

/-- C6: the URL sanitizer's contract, spelled out over the trimmed and
HTML-unescaped value `v`: empty is rejected; a `/`- or `#`-prefixed value is
accepted and returned HTML-escaped; otherwise the value must yield a
non-empty scheme under the modelled `url.Parse`, and exactly the
(case-insensitive) schemes http, https, mailto, tel are accepted, the value
returned HTML-escaped; everything else (no scheme, parse error, other
scheme) yields the empty string. -/
theorem c6_safeurl_contract : ∀ raw v : List Char, trimSpace (unescapeString raw) = v →
    (v = [] → SafeURL raw = []) ∧
    (v ≠ [] → (str "/" <+: v ∨ str "#" <+: v) → SafeURL raw = escapeString v) ∧
    (v ≠ [] → ¬ (str "/" <+: v ∨ str "#" <+: v) →
      (urlSchemeOf v = none → SafeURL raw = []) ∧
      (∀ sch, urlSchemeOf v = some sch →
        ((toLowerStr sch = str "http" ∨ toLowerStr sch = str "https" ∨
          toLowerStr sch = str "mailto" ∨ toLowerStr sch = str "tel") →
          SafeURL raw = escapeString v) ∧
        (¬ (toLowerStr sch = str "http" ∨ toLowerStr sch = str "https" ∨
            toLowerStr sch = str "mailto" ∨ toLowerStr sch = str "tel") →
          SafeURL raw = []))) := by
  intro raw v hv
  refine ⟨?_, ?_, ?_⟩
  · intro h
    simp [SafeURL, hv, h]
  · intro h hpre
    simp [SafeURL, hv, h, hpre]
  · intro h hpre
    rw [not_or] at hpre
    refine ⟨?_, ?_⟩
    · intro hs
      simp [SafeURL, hv, h, hpre.1, hpre.2, hs]
    · intro sch hs
      refine ⟨?_, ?_⟩
      · intro hal
        simp [SafeURL, hv, h, hpre.1, hpre.2, hs, hal]
      · intro hal
        simp [SafeURL, hv, h, hpre.1, hpre.2, hs, hal]

/-- Witness for C6: a `javascript:` value is rejected, a rooted path and an
uppercase `HTTPS` URL are accepted and escaped. -/
theorem c6_safeurl_contract_witness :
    SafeURL (str "javascript:alert1") = [] ∧
    SafeURL (str "/a?b=1") = escapeString (str "/a?b=1") ∧
    SafeURL (str "HTTPS://Ex.com/p") = escapeString (str "HTTPS://Ex.com/p") :=
  ⟨(((c6_safeurl_contract (str "javascript:alert1") _ rfl).2.2 (by decide)
      (by decide)).2 (str "javascript") (by decide)).2 (by decide),
   (c6_safeurl_contract (str "/a?b=1") _ rfl).2.1 (by decide) (Or.inl ⟨str "a?b=1", rfl⟩),
   (((c6_safeurl_contract (str "HTTPS://Ex.com/p") _ rfl).2.2 (by decide)
      (by decide)).2 (str "HTTPS") (by decide)).1 (by decide)⟩

/-! ### NUL-freeness and placeholder-token machinery (for C3 and C5) -/

theorem nulFree_nil : nulFree [] := by simp [nulFree]

theorem nulFree_append {a b : List Char} (ha : nulFree a) (hb : nulFree b) :
    nulFree (a ++ b) := by
  simp [nulFree] at *
  exact ⟨ha, hb⟩

theorem nulFree_append_left {a b : List Char} (h : nulFree (a ++ b)) : nulFree a := by
  simp [nulFree] at *
  exact h.1

theorem nulFree_append_right {a b : List Char} (h : nulFree (a ++ b)) : nulFree b := by
  simp [nulFree] at *
  exact h.2

theorem nulFree_cons {c : Char} {l : List Char} (hc : ¬ c = nulC) (hl : nulFree l) :
    nulFree (c :: l) := by
  simp [nulFree] at *
  exact ⟨fun h => hc h.symm, hl⟩

theorem nulFree_cons_head {c : Char} {l : List Char} (h : nulFree (c :: l)) : ¬ c = nulC := by
  simp [nulFree] at h
  exact fun hc => h.1 hc.symm

theorem nulFree_cons_tail {c : Char} {l : List Char} (h : nulFree (c :: l)) : nulFree l := by
  simp [nulFree] at *
  exact h.2

theorem nulFree_of_subset {a b : List Char} (h : ∀ c, c ∈ a → c ∈ b) (hb : nulFree b) :
    nulFree a := fun hc => hb (h _ hc)

theorem natDigitsAux_mem : ∀ (f n : Nat) (acc : List Char) (c : Char),
    c ∈ natDigitsAux f n acc → c ∈ acc ∨ c.isDigit = true := by
  intro f
  induction f with
  | zero => intro n acc c h; exact Or.inl h
  | succ f ih =>
    intro n acc c h
    simp only [natDigitsAux] at h
    split at h
    · rcases List.mem_cons.mp h with h1 | h1
      · subst h1
        right
        rename_i hn
        interval_cases n <;> decide
      · exact Or.inl h1
    · rcases ih (n / 10) (Char.ofNat (48 + n % 10) :: acc) c h with h1 | h1
      · rcases List.mem_cons.mp h1 with h2 | h2
        · subst h2
          right
          obtain ⟨k, hk, hkeq⟩ : ∃ k, k < 10 ∧ n % 10 = k :=
            ⟨n % 10, Nat.mod_lt _ (by omega), rfl⟩
          rw [hkeq]
          interval_cases k <;> decide
        · exact Or.inl h2
      · exact Or.inr h1

theorem natDigits_mem {n : Nat} {c : Char} (h : c ∈ natDigits n) : c.isDigit = true := by
  rcases natDigitsAux_mem (n + 1) n [] c h with h1 | h1
  · simp at h1
  · exact h1

theorem phTok_chars {n : Nat} {c : Char} (h : c ∈ phTok n) : tokChar c = true := by
  simp only [phTok, List.mem_cons, List.mem_append, List.mem_singleton] at h
  rcases h with h | h | h | h | h
  · subst h; decide
  · subst h; decide
  · subst h; decide
  · simp [tokChar, natDigits_mem h]
  · rcases h with h | h
    · subst h; decide
    · simp at h

theorem phTok_ne_nil (n : Nat) : phTok n ≠ [] := by simp [phTok]

theorem nulC_mem_phTok (n : Nat) : nulC ∈ phTok n := by simp [phTok]

theorem phTok_head (n : Nat) : (phTok n).head? = some nulC := by simp [phTok]

/-! ### Structure lemmas for the token-shape predicate -/

theorem toks_le {i k : Nat} {l : List Char} (h : Toks i k l) : i ≤ k := by
  induction h with
  | nil => exact Nat.le_refl _
  | cons i k s l hs hl ih => omega

theorem toks_nulFree_eq {i k : Nat} {l : List Char} (h : Toks i k l) (hnf : nulFree l) :
    i = k := by
  cases h with
  | nil => rfl
  | cons i k s l hs hl =>
    exfalso
    have : nulC ∈ s ++ phTok i ++ l := by
      simp [nulC_mem_phTok i]
    exact hnf this

theorem toks_self_nulFree {i : Nat} {l : List Char} (h : Toks i i l) : nulFree l := by
  cases h with
  | nil => assumption
  | cons i k s l hs hl => exact absurd (toks_le hl) (by omega)

theorem toks_prepend {i k : Nat} {l : List Char} (s : List Char) (hs : nulFree s)
    (h : Toks i k l) : Toks i k (s ++ l) := by
  induction h with
  | nil i' s' hs' => exact Toks.nil _ _ (nulFree_append hs hs')
  | cons i' k' s' l' hs' hl' ih =>
    have : s ++ (s' ++ phTok i' ++ l') = (s ++ s') ++ phTok i' ++ l' := by simp
    rw [this]
    exact Toks.cons _ _ _ _ (nulFree_append hs hs') hl'

theorem toks_append {i k : Nat} {l : List Char} (s : List Char) (hs : nulFree s)
    (h : Toks i k l) : Toks i k (l ++ s) := by
  induction h with
  | nil i' s' hs' => exact Toks.nil _ _ (nulFree_append hs' hs)
  | cons i' k' s' l' hs' hl' ih =>
    have : (s' ++ phTok i' ++ l') ++ s = s' ++ phTok i' ++ (l' ++ s) := by simp
    rw [this]
    exact Toks.cons _ _ _ _ hs' ih

theorem toks_concat {i j k : Nat} {x y : List Char} (hx : Toks i j x) (hy : Toks j k y) :
    Toks i k (x ++ y) := by
  induction hx with
  | nil i' s' hs' => exact toks_prepend _ hs' hy
  | cons i' k' s' l' hs' hl' ih =>
    have : (s' ++ phTok i' ++ l') ++ y = s' ++ phTok i' ++ (l' ++ y) := by simp
    rw [this]
    exact Toks.cons _ _ _ _ hs' (ih hy)

theorem toks_tail {i k : Nat} {c : Char} {t : List Char} (h : Toks i k (c :: t))
    (hc : ¬ c = nulC) : Toks i k t := by
  generalize hw : c :: t = w at h
  cases h with
  | nil _ s hnf =>
    subst hw
    exact Toks.nil _ _ (nulFree_cons_tail hnf)
  | cons _ _ s l hs hl =>
    cases s with
    | nil =>
      exfalso
      simp only [List.nil_append, phTok, List.cons_append, List.cons.injEq] at hw
      exact hc hw.1
    | cons d s' =>
      simp only [List.cons_append, List.append_assoc, List.cons.injEq] at hw
      rcases hw with ⟨hcd, ht⟩
      rw [ht]
      have hs' : nulFree s' := nulFree_cons_tail hs
      have h2 : Toks i k (s' ++ phTok i ++ l) := Toks.cons _ _ _ _ hs' hl
      simpa using h2

theorem toks_cons_nul {i k : Nat} {t : List Char} (h : Toks i k (nulC :: t)) :
    ∃ l', nulC :: t = phTok i ++ l' ∧ Toks (i + 1) k l' := by
  generalize hw : nulC :: t = w at h
  cases h with
  | nil _ s hnf =>
    exfalso
    subst hw
    exact nulFree_cons_head hnf rfl
  | cons _ _ s l hs hl =>
    cases s with
    | nil =>
      refine ⟨l, ?_, hl⟩
      simp
    | cons d s' =>
      exfalso
      simp only [List.cons_append, List.append_assoc, List.cons.injEq] at hw
      exact nulFree_cons_head hs hw.1.symm

theorem toks_split_last {i k : Nat} {l : List Char} (h : Toks i k l) :
    ∀ a b : List Char, l = a ++ b →
    (∀ ch, a.getLast? = some ch → tokChar ch = false) →
    ∃ j, Toks i j a ∧ Toks j k b := by
  induction h with
  | nil i' s hs =>
    intro a b hab _
    subst hab
    exact ⟨i', Toks.nil _ _ (nulFree_append_left hs),
      Toks.nil _ _ (nulFree_append_right hs)⟩
  | cons i' k' s l' hs hl' ih =>
    intro a b hab hlast
    have hab' : a ++ b = s ++ (phTok i' ++ l') := by rw [← hab]; simp
    rcases List.append_eq_append_iff.mp hab' with ⟨a', hs', hb⟩ | ⟨c', ha, hd⟩
    · refine ⟨i', Toks.nil _ _ ?_, ?_⟩
      · exact nulFree_append_left (hs' ▸ hs)
      · rw [hb, ← List.append_assoc]
        exact Toks.cons _ _ _ _ (nulFree_append_right (hs' ▸ hs)) hl'
    · rcases List.append_eq_append_iff.mp hd.symm with ⟨x, hph, hbx⟩ | ⟨y, hcy, hly⟩
      · rcases Decidable.em (c' = []) with hc | hc
        · subst hc
          simp only [List.nil_append] at hph
          refine ⟨i', Toks.nil _ _ ?_, ?_⟩
          · rw [ha]; simpa using hs
          · rw [hbx, ← hph]
            have h1 : Toks i' k' ([] ++ phTok i' ++ l') := Toks.cons _ _ _ _ nulFree_nil hl'
            simpa using h1
        · rcases Decidable.em (x = []) with hx | hx
          · subst hx
            rw [List.append_nil] at hph
            refine ⟨i' + 1, ?_, ?_⟩
            · rw [ha, ← hph]
              have h1 : Toks i' (i' + 1) (s ++ phTok i' ++ []) :=
                Toks.cons _ _ _ _ hs (Toks.nil _ _ nulFree_nil)
              simpa using h1
            · rw [hbx]
              simpa using hl'
          · exfalso
            obtain ⟨ch, hch⟩ : ∃ ch, c'.getLast? = some ch := by
              cases hq : c'.getLast? with
              | none => exact absurd (List.getLast?_eq_none_iff.mp hq) hc
              | some ch => exact ⟨ch, rfl⟩
            have hmem : ch ∈ phTok i' := by
              rw [hph]
              exact List.mem_append_left _ (List.mem_of_getLast?_eq_some hch)
            have : a.getLast? = some ch := by
              rw [ha, List.getLast?_append_of_ne_nil _ hc, hch]
            have := hlast ch this
            rw [phTok_chars hmem] at this
            exact absurd this (by simp)
      · rcases Decidable.em (y = []) with hy | hy
        · subst hy
          rw [List.append_nil] at hcy
          simp only [List.nil_append] at hly
          refine ⟨i' + 1, ?_, ?_⟩
          · rw [ha, hcy]
            have h1 : Toks i' (i' + 1) (s ++ phTok i' ++ []) :=
              Toks.cons _ _ _ _ hs (Toks.nil _ _ nulFree_nil)
            simpa using h1
          · rw [← hly]
            exact hl'
        · have hcond : ∀ ch, y.getLast? = some ch → tokChar ch = false := by
            intro ch hch
            apply hlast
            have hpy : phTok i' ++ y ≠ [] := by simp [phTok]
            rw [ha, hcy, List.getLast?_append_of_ne_nil _ hpy,
              List.getLast?_append_of_ne_nil _ hy, hch]
          rcases ih y b hly hcond with ⟨j, hyj, hbj⟩
          refine ⟨j, ?_, hbj⟩
          rw [ha, hcy, ← List.append_assoc]
          exact Toks.cons _ _ _ _ hs hyj

theorem toks_split_head {i k : Nat} {l : List Char} (h : Toks i k l) :
    ∀ a b : List Char, l = a ++ b →
    (∀ ch, b.head? = some ch → tokChar ch = false) →
    ∃ j, Toks i j a ∧ Toks j k b := by
  induction h with
  | nil i' s hs =>
    intro a b hab _
    subst hab
    exact ⟨i', Toks.nil _ _ (nulFree_append_left hs),
      Toks.nil _ _ (nulFree_append_right hs)⟩
  | cons i' k' s l' hs hl' ih =>
    intro a b hab hhead
    have hab' : a ++ b = s ++ (phTok i' ++ l') := by rw [← hab]; simp
    rcases List.append_eq_append_iff.mp hab' with ⟨a', hs', hb⟩ | ⟨c', ha, hd⟩
    · refine ⟨i', Toks.nil _ _ ?_, ?_⟩
      · exact nulFree_append_left (hs' ▸ hs)
      · rw [hb, ← List.append_assoc]
        exact Toks.cons _ _ _ _ (nulFree_append_right (hs' ▸ hs)) hl'
    · rcases List.append_eq_append_iff.mp hd.symm with ⟨x, hph, hbx⟩ | ⟨y, hcy, hly⟩
      · rcases Decidable.em (c' = []) with hc | hc
        · subst hc
          simp only [List.nil_append] at hph
          refine ⟨i', Toks.nil _ _ ?_, ?_⟩
          · rw [ha]; simpa using hs
          · rw [hbx, ← hph]
            have h1 : Toks i' k' ([] ++ phTok i' ++ l') := Toks.cons _ _ _ _ nulFree_nil hl'
            simpa using h1
        · rcases Decidable.em (x = []) with hx | hx
          · subst hx
            rw [List.append_nil] at hph
            refine ⟨i' + 1, ?_, ?_⟩
            · rw [ha, ← hph]
              have h1 : Toks i' (i' + 1) (s ++ phTok i' ++ []) :=
                Toks.cons _ _ _ _ hs (Toks.nil _ _ nulFree_nil)
              simpa using h1
            · rw [hbx]
              simpa using hl'
          · exfalso
            obtain ⟨ch, t', hch⟩ : ∃ ch t', x = ch :: t' := by
              cases x with
              | nil => exact absurd rfl hx
              | cons ch t' => exact ⟨ch, t', rfl⟩
            have hmem : ch ∈ phTok i' := by
              rw [hph, hch]
              exact List.mem_append_right _ (by simp)
            have hb' : b.head? = some ch := by
              rw [hbx, hch]
              simp
            have := hhead ch hb'
            rw [phTok_chars hmem] at this
            exact absurd this (by simp)
      · rcases ih y b hly hhead with ⟨j, hyj, hbj⟩
        refine ⟨j, ?_, hbj⟩
        rw [ha, hcy, ← List.append_assoc]
        exact Toks.cons _ _ _ _ hs hyj

/-! ### Generic lemmas about the replace-all driver -/

theorem replaceAll_cons_some {μ σ : Type}
    (matchAt : List Char → Option (μ × List Char)) (repl : μ → σ → List Char × σ)
    (fuel : Nat) (c : Char) (t : List Char) (st : σ) (m : μ) (r : List Char)
    (h : matchAt (c :: t) = some (m, r)) :
    replaceAllFuelSt matchAt repl (fuel + 1) (c :: t) st =
      ((repl m st).1 ++ (replaceAllFuelSt matchAt repl fuel r (repl m st).2).1,
        (replaceAllFuelSt matchAt repl fuel r (repl m st).2).2) := by
  simp only [replaceAllFuelSt, h]

theorem replaceAll_cons_none {μ σ : Type}
    (matchAt : List Char → Option (μ × List Char)) (repl : μ → σ → List Char × σ)
    (fuel : Nat) (c : Char) (t : List Char) (st : σ)
    (h : matchAt (c :: t) = none) :
    replaceAllFuelSt matchAt repl (fuel + 1) (c :: t) st =
      (c :: (replaceAllFuelSt matchAt repl fuel t st).1,
        (replaceAllFuelSt matchAt repl fuel t st).2) := by
  simp only [replaceAllFuelSt, h]

theorem replaceAll_fuel_irrel {μ σ : Type}
    (matchAt : List Char → Option (μ × List Char)) (repl : μ → σ → List Char × σ)
    (hcons : ∀ l p, matchAt l = some p → p.2.length < l.length) :
    ∀ (f1 : Nat), ∀ (f2 : Nat) (l : List Char) (st : σ), l.length ≤ f1 → l.length ≤ f2 →
      replaceAllFuelSt matchAt repl f1 l st = replaceAllFuelSt matchAt repl f2 l st := by
  intro f1
  induction f1 with
  | zero =>
    intro f2 l st h1 h2
    have : l = [] := List.length_eq_zero.mp (Nat.le_zero.mp h1)
    subst this
    cases f2 <;> rfl
  | succ f1 ih =>
    intro f2 l st h1 h2
    cases l with
    | nil => cases f2 <;> rfl
    | cons c t =>
      cases f2 with
      | zero => simp at h2
      | succ f2 =>
        cases hm : matchAt (c :: t) with
        | some p =>
          obtain ⟨m, r⟩ := p
          have hlen := hcons _ _ hm
          simp only [List.length_cons] at h1 h2 hlen
          rw [replaceAll_cons_some matchAt repl f1 c t st m r hm,
            replaceAll_cons_some matchAt repl f2 c t st m r hm,
            ih f2 r ((repl m st).2) (by omega) (by omega)]
        | none =>
          simp only [List.length_cons] at h1 h2
          rw [replaceAll_cons_none matchAt repl f1 c t st hm,
            replaceAll_cons_none matchAt repl f2 c t st hm,
            ih f2 t st (by omega) (by omega)]

theorem replaceAll_tok_copy {μ σ : Type}
    (matchAt : List Char → Option (μ × List Char)) (repl : μ → σ → List Char × σ)
    (hStart : ∀ c t p, matchAt (c :: t) = some p → tokChar c = false) :
    ∀ (pre : List Char), ∀ (fuel : Nat) (x : List Char) (st : σ),
      (∀ c ∈ pre, tokChar c = true) → (pre ++ x).length ≤ fuel →
      replaceAllFuelSt matchAt repl fuel (pre ++ x) st =
        ((pre ++ (replaceAllFuelSt matchAt repl (fuel - pre.length) x st).1),
          (replaceAllFuelSt matchAt repl (fuel - pre.length) x st).2) := by
  intro pre
  induction pre with
  | nil =>
    intro fuel x st _ hf
    simp
  | cons c pre' ih =>
    intro fuel x st htok hf
    cases fuel with
    | zero => simp at hf
    | succ fuel =>
      have hnone : matchAt (c :: (pre' ++ x)) = none := by
        cases hm : matchAt (c :: (pre' ++ x)) with
        | none => rfl
        | some p =>
          have h1 := hStart _ _ _ hm
          rw [htok c (by simp)] at h1
          simp at h1
      have hx : c :: pre' ++ x = c :: (pre' ++ x) := by simp
      rw [hx, replaceAll_cons_none matchAt repl fuel c (pre' ++ x) st hnone]
      simp only [List.length_cons, List.length_append] at hf
      rw [ih fuel x st (fun d hd => htok d (by simp [hd])) (by simp; omega)]
      have hfe : fuel + 1 - (pre'.length + 1) = fuel - pre'.length := by omega
      simp [hfe]

theorem replaceAll_nulFree {μ σ : Type}
    (matchAt : List Char → Option (μ × List Char)) (repl : μ → σ → List Char × σ)
    (hcons : ∀ l p, matchAt l = some p → p.2.length < l.length)
    (hRepl : ∀ l p st, matchAt l = some p → nulFree l →
      nulFree (repl p.1 st).1 ∧ nulFree p.2) :
    ∀ (fuel : Nat) (l : List Char) (st : σ), l.length ≤ fuel → nulFree l →
      nulFree ((replaceAllFuelSt matchAt repl fuel l st).1) := by
  intro fuel
  induction fuel with
  | zero =>
    intro l st h1 h2
    have : l = [] := List.length_eq_zero.mp (Nat.le_zero.mp h1)
    subst this
    exact h2
  | succ fuel ih =>
    intro l st h1 h2
    cases l with
    | nil => exact nulFree_nil
    | cons c t =>
      cases hm : matchAt (c :: t) with
      | some p =>
        obtain ⟨m, r⟩ := p
        have hlen := hcons _ _ hm
        rcases hRepl _ _ st hm h2 with ⟨hr1, hr2⟩
        simp only [List.length_cons] at h1
        simp at hlen
        rw [replaceAll_cons_some matchAt repl fuel c t st m r hm]
        exact nulFree_append hr1 (ih _ _ (by omega) hr2)
      | none =>
        simp only [List.length_cons] at h1
        rw [replaceAll_cons_none matchAt repl fuel c t st hm]
        exact nulFree_cons (nulFree_cons_head h2) (ih _ _ (by omega) (nulFree_cons_tail h2))

theorem natDigitsAux_len_ge : ∀ (f n : Nat) (acc : List Char),
    acc.length ≤ (natDigitsAux f n acc).length := by
  intro f
  induction f with
  | zero => intro n acc; exact Nat.le_refl _
  | succ f ih =>
    intro n acc
    simp only [natDigitsAux]
    split
    · simp
    · have h1 := ih (n / 10) (Char.ofNat (48 + n % 10) :: acc)
      simp at h1
      omega

theorem natDigits_len_pos (n : Nat) : 0 < (natDigits n).length := by
  simp only [natDigits, natDigitsAux]
  split
  · simp
  · have h1 := natDigitsAux_len_ge n (n / 10) [Char.ofNat (48 + n % 10)]
    simp at h1
    omega

theorem phTok_len_ge (i : Nat) : 5 ≤ (phTok i).length := by
  have h1 := natDigits_len_pos i
  simp [phTok]
  omega

theorem replaceAll_toks {μ σ : Type}
    (matchAt : List Char → Option (μ × List Char)) (repl : μ → σ → List Char × σ)
    (hcons : ∀ l p, matchAt l = some p → p.2.length < l.length)
    (hStart : ∀ c t p, matchAt (c :: t) = some p → tokChar c = false)
    (hRepl : ∀ l p st i k, matchAt l = some p → Toks i k l →
      ∃ j, Toks i j (repl p.1 st).1 ∧ Toks j k p.2) :
    ∀ (fuel : Nat) (l : List Char) (st : σ) (i k : Nat), l.length ≤ fuel → Toks i k l →
      Toks i k ((replaceAllFuelSt matchAt repl fuel l st).1) := by
  intro fuel
  induction fuel with
  | zero =>
    intro l st i k h1 h2
    have : l = [] := List.length_eq_zero.mp (Nat.le_zero.mp h1)
    subst this
    exact h2
  | succ fuel ih =>
    intro l st i k h1 h2
    cases l with
    | nil => exact h2
    | cons c t =>
      by_cases hc : c = nulC
      · subst hc
        rcases toks_cons_nul h2 with ⟨l', heq, hl'⟩
        rw [heq] at h1 ⊢
        have hlen : (phTok i).length + l'.length ≤ fuel + 1 := by
          simpa using h1
        have hph5 := phTok_len_ge i
        rw [replaceAll_tok_copy matchAt repl hStart (phTok i) (fuel + 1) l' st
          (fun d hd => phTok_chars hd) (by simpa using hlen)]
        rw [replaceAll_fuel_irrel matchAt repl hcons (fuel + 1 - (phTok i).length) fuel l' st
          (by omega) (by omega)]
        have hrec := ih l' st (i + 1) k (by omega) hl'
        have h3 : Toks i k ([] ++ phTok i ++
            (replaceAllFuelSt matchAt repl fuel l' st).1) :=
          Toks.cons _ _ _ _ nulFree_nil hrec
        simpa using h3
      · cases hm : matchAt (c :: t) with
        | some p =>
          obtain ⟨m, r⟩ := p
          rcases hRepl _ _ st i k hm h2 with ⟨j, hr1, hr2⟩
          have hlen := hcons _ _ hm
          simp only [List.length_cons] at h1
          simp at hlen
          rw [replaceAll_cons_some matchAt repl fuel c t st m r hm]
          exact toks_concat hr1 (ih _ _ _ _ (by omega) hr2)
        | none =>
          have ht := toks_tail h2 hc
          simp only [List.length_cons] at h1
          rw [replaceAll_cons_none matchAt repl fuel c t st hm]
          have hrec := ih t st i k (by omega) ht
          have h3 : Toks i k ([c] ++ (replaceAllFuelSt matchAt repl fuel t st).1) :=
            toks_prepend _ (nulFree_cons hc nulFree_nil) hrec
          simpa using h3

/-! ### Structure lemmas for the regex scanners -/

theorem dotSplits_spec (delim : List Char) :
    ∀ (l : List Char) (p : List Char × List Char), p ∈ dotSplits delim l →
      l = p.1 ++ delim ++ p.2 := by
  intro l
  induction l with
  | nil =>
    intro p hp
    simp only [dotSplits] at hp
    split at hp
    · simp only [List.mem_singleton] at hp
      subst hp
      simp_all
    · simp at hp
  | cons c t ih =>
    intro p hp
    simp only [dotSplits, List.mem_append] at hp
    rcases hp with hp | hp
    · split at hp
      · simp only [List.mem_singleton] at hp
        subst hp
        rename_i hpre
        have h1 : delim <+: c :: t := by
          rw [← List.isPrefixOf_iff_prefix]
          exact hpre
        obtain ⟨u, hu⟩ := h1
        rw [← hu]
        simp [List.drop_left]
      · simp at hp
    · split at hp
      · simp at hp
      · simp only [List.mem_map] at hp
        obtain ⟨q, hq, hpq⟩ := hp
        have h1 := ih q hq
        rw [← hpq]
        simp [h1]

theorem splitAtSub?_spec (pat : List Char) :
    ∀ (l : List Char) (a b : List Char), splitAtSub? pat l = some (a, b) →
      l = a ++ pat ++ b := by
  intro l
  induction l with
  | nil =>
    intro a b h
    simp only [splitAtSub?] at h
    split at h
    · simp only [Option.some.injEq, Prod.mk.injEq] at h
      rcases h with ⟨h1, h2⟩
      simp_all
    · simp at h
  | cons c t ih =>
    intro a b h
    simp only [splitAtSub?] at h
    split at h
    · simp only [Option.some.injEq, Prod.mk.injEq] at h
      rcases h with ⟨h1, h2⟩
      rename_i hpre
      have h3 : pat <+: c :: t := by
        rw [← List.isPrefixOf_iff_prefix]
        exact hpre
      obtain ⟨u, hu⟩ := h3
      rw [← h1, ← h2, ← hu]
      simp [List.drop_left]
    · simp only [Option.map_eq_some'] at h
      obtain ⟨q, hq, hpq⟩ := h
      have h1 := ih q.1 q.2 (by rw [hq])
      have h2 : a = c :: q.1 ∧ b = q.2 := by
        have := hpq
        simp only [Prod.mk.injEq] at this
        exact ⟨this.1.symm, this.2.symm⟩
      rw [h2.1, h2.2]
      simp [h1]

theorem charFromCode_ne_nul (v : Nat) : ¬ charFromCode v = nulC := by
  unfold charFromCode
  split
  · rename_i hv
    intro h
    have hval : v.isValidChar := by
      rcases hv.2 with h1 | h1
      · exact Or.inl h1
      · exact Or.inr ⟨by omega, by omega⟩
    have h2 : (Char.ofNat v).toNat = v := by
      rw [Char.ofNat, dif_pos hval]
      simp [Char.ofNatAux, Char.toNat, UInt32.toNat, BitVec.toNat_ofNatLt]
    rw [h] at h2
    simp [Char.toNat, nulC] at h2
    omega
  · decide

theorem unescEntity_nulFree {l : List Char} {c : Char} {rest : List Char}
    (h : unescEntity l = some (c, rest)) (hnf : nulFree l) :
    ¬ c = nulC ∧ nulFree rest := by
  unfold unescEntity at h
  split_ifs at h with h1 h2 h3 h4 h5
  · exact ⟨by
      simp only [Option.some.injEq, Prod.mk.injEq] at h
      rw [← h.1]; decide,
     by
      simp only [Option.some.injEq, Prod.mk.injEq] at h
      rw [← h.2]
      exact nulFree_of_subset (fun d hd => List.mem_of_mem_drop hd) hnf⟩
  · exact ⟨by
      simp only [Option.some.injEq, Prod.mk.injEq] at h
      rw [← h.1]; decide,
     by
      simp only [Option.some.injEq, Prod.mk.injEq] at h
      rw [← h.2]
      exact nulFree_of_subset (fun d hd => List.mem_of_mem_drop hd) hnf⟩
  · exact ⟨by
      simp only [Option.some.injEq, Prod.mk.injEq] at h
      rw [← h.1]; decide,
     by
      simp only [Option.some.injEq, Prod.mk.injEq] at h
      rw [← h.2]
      exact nulFree_of_subset (fun d hd => List.mem_of_mem_drop hd) hnf⟩
  · exact ⟨by
      simp only [Option.some.injEq, Prod.mk.injEq] at h
      rw [← h.1]; decide,
     by
      simp only [Option.some.injEq, Prod.mk.injEq] at h
      rw [← h.2]
      exact nulFree_of_subset (fun d hd => List.mem_of_mem_drop hd) hnf⟩
  · exact ⟨by
      simp only [Option.some.injEq, Prod.mk.injEq] at h
      rw [← h.1]; decide,
     by
      simp only [Option.some.injEq, Prod.mk.injEq] at h
      rw [← h.2]
      exact nulFree_of_subset (fun d hd => List.mem_of_mem_drop hd) hnf⟩
  · split at h
    · rename_i t
      split at h
      · rename_i t2
        by_cases hds : List.takeWhile isHexDigit t2 = []
        · simp [hds] at h
        · rw [if_neg hds] at h
          split at h
          · rename_i t4 heq
            simp only [Option.some.injEq, Prod.mk.injEq] at h
            refine ⟨by rw [← h.1]; exact charFromCode_ne_nul _, ?_⟩
            rw [← h.2]
            apply nulFree_of_subset _ hnf
            intro d hd
            have hx1 : d ∈ List.dropWhile isHexDigit t2 := by rw [heq]; simp [hd]
            have hx2 : d ∈ t2 := (List.dropWhile_sublist _).subset hx1
            simp [hx2]
          · simp only [Option.some.injEq, Prod.mk.injEq] at h
            refine ⟨by rw [← h.1]; exact charFromCode_ne_nul _, ?_⟩
            rw [← h.2]
            apply nulFree_of_subset _ hnf
            intro d hd
            have hx2 : d ∈ t2 := (List.dropWhile_sublist _).subset hd
            simp [hx2]
      · rename_i t0 hne
        by_cases hds : List.takeWhile Char.isDigit t = []
        · simp [hds] at h
        · rw [if_neg hds] at h
          split at h
          · rename_i t4 heq
            simp only [Option.some.injEq, Prod.mk.injEq] at h
            refine ⟨by rw [← h.1]; exact charFromCode_ne_nul _, ?_⟩
            rw [← h.2]
            apply nulFree_of_subset _ hnf
            intro d hd
            have hx1 : d ∈ List.dropWhile Char.isDigit t := by rw [heq]; simp [hd]
            have hx2 : d ∈ t := (List.dropWhile_sublist _).subset hx1
            simp [hx2]
          · simp only [Option.some.injEq, Prod.mk.injEq] at h
            refine ⟨by rw [← h.1]; exact charFromCode_ne_nul _, ?_⟩
            rw [← h.2]
            apply nulFree_of_subset _ hnf
            intro d hd
            have hx2 : d ∈ t := (List.dropWhile_sublist _).subset hd
            simp [hx2]
    · simp at h

theorem unescapeAux_nulFree : ∀ (fuel : Nat) (l : List Char), nulFree l →
    nulFree (unescapeAux fuel l) := by
  intro fuel
  induction fuel with
  | zero => intro l h; exact h
  | succ fuel ih =>
    intro l h
    cases l with
    | nil => exact nulFree_nil
    | cons c t =>
      simp only [unescapeAux]
      split
      · cases hm : unescEntity t with
        | some p =>
          obtain ⟨ch, rest⟩ := p
          rcases unescEntity_nulFree hm (nulFree_cons_tail h) with ⟨hh1, hh2⟩
          show nulFree (ch :: unescapeAux fuel rest)
          exact nulFree_cons hh1 (ih _ hh2)
        | none =>
          show nulFree ('&' :: unescapeAux fuel t)
          exact nulFree_cons (by decide) (ih _ (nulFree_cons_tail h))
      · exact nulFree_cons (nulFree_cons_head h) (ih _ (nulFree_cons_tail h))

theorem unescapeString_nulFree {l : List Char} (h : nulFree l) :
    nulFree (unescapeString l) := unescapeAux_nulFree _ _ h

theorem escChar_no_nul {c : Char} (hc : ¬ c = nulC) : nulC ∉ escChar c := by
  unfold escChar
  split_ifs
  · decide
  · decide
  · decide
  · decide
  · decide
  · simp only [List.mem_singleton]
    exact fun h => hc h.symm

theorem escapeString_nulFree {l : List Char} (h : nulFree l) : nulFree (escapeString l) := by
  intro hc
  rw [escapeString, List.mem_flatMap] at hc
  obtain ⟨a, ha, hca⟩ := hc
  by_cases hA : a = nulC
  · exact h (hA ▸ ha)
  · exact escChar_no_nul hA hca

theorem trimSpace_nulFree {l : List Char} (h : nulFree l) : nulFree (trimSpace l) := by
  apply nulFree_of_subset _ h
  intro c hc
  unfold trimSpace at hc
  rw [List.mem_reverse] at hc
  have h1 := (List.dropWhile_sublist _).subset hc
  rw [List.mem_reverse] at h1
  exact (List.dropWhile_sublist _).subset h1

theorem safeURL_nulFree {raw : List Char} (h : nulFree raw) : nulFree (SafeURL raw) := by
  have hval : nulFree (trimSpace (unescapeString raw)) :=
    trimSpace_nulFree (unescapeString_nulFree h)
  simp only [SafeURL]
  split_ifs
  · exact nulFree_nil
  · exact escapeString_nulFree hval
  · split
    · exact nulFree_nil
    · split_ifs
      · exact escapeString_nulFree hval
      · exact nulFree_nil


theorem matchBoldAt_struct {l : List Char} {g r : List Char}
    (h : matchBoldAt l = some (g, r)) :
    l = str "**" ++ (g ++ (str "**" ++ r)) ∧ g ≠ [] := by
  unfold matchBoldAt at h
  split at h
  · rename_i t
    obtain ⟨p, hp, hfp⟩ := List.exists_of_findSome?_eq_some h
    have hspec := dotSplits_spec (str "**") t p hp
    split at hfp
    · simp at hfp
    · simp only [Option.some.injEq, Prod.mk.injEq] at hfp
      rename_i hne
      refine ⟨?_, by rw [← hfp.1]; exact hne⟩
      rw [← hfp.1, ← hfp.2]
      have hstr : str "**" = ['*', '*'] := rfl
      rw [hstr] at hspec ⊢
      simp [hspec]
  · simp at h

theorem matchBoldUAt_struct {l : List Char} {g r : List Char}
    (h : matchBoldUAt l = some (g, r)) :
    l = str "__" ++ (g ++ (str "__" ++ r)) ∧ g ≠ [] := by
  unfold matchBoldUAt at h
  split at h
  · rename_i t
    obtain ⟨p, hp, hfp⟩ := List.exists_of_findSome?_eq_some h
    have hspec := dotSplits_spec (str "__") t p hp
    split at hfp
    · simp at hfp
    · simp only [Option.some.injEq, Prod.mk.injEq] at hfp
      rename_i hne
      refine ⟨?_, by rw [← hfp.1]; exact hne⟩
      rw [← hfp.1, ← hfp.2]
      have hstr : str "__" = ['_', '_'] := rfl
      rw [hstr] at hspec ⊢
      simp [hspec]
  · simp at h

theorem matchItalicAt_struct {l : List Char} {g r : List Char}
    (h : matchItalicAt l = some (g, r)) :
    l = '*' :: (g ++ '*' :: r) ∧ g ≠ [] := by
  simp only [matchItalicAt] at h
  split at h
  · rename_i t
    split_ifs at h with hg
    split at h
    · rename_i r0 heq
      simp only [Option.some.injEq, Prod.mk.injEq] at h
      have hsplit := List.takeWhile_append_dropWhile (fun d => decide (¬ d = '*')) t
      simp only [decide_not] at hsplit heq hg h
      refine ⟨?_, by rw [← h.1]; exact hg⟩
      rw [← h.1, ← h.2]
      simp only [List.cons.injEq, true_and]
      conv_lhs => rw [← hsplit]
      rw [heq]
    · simp at h
  · simp at h

theorem matchItalicUAt_struct {l : List Char} {g r : List Char}
    (h : matchItalicUAt l = some (g, r)) :
    l = '_' :: (g ++ '_' :: r) ∧ g ≠ [] := by
  simp only [matchItalicUAt] at h
  split at h
  · rename_i t
    split_ifs at h with hg
    split at h
    · rename_i r0 heq
      simp only [Option.some.injEq, Prod.mk.injEq] at h
      have hsplit := List.takeWhile_append_dropWhile (fun d => decide (¬ d = '_')) t
      simp only [decide_not] at hsplit heq hg h
      refine ⟨?_, by rw [← h.1]; exact hg⟩
      rw [← h.1, ← h.2]
      simp only [List.cons.injEq, true_and]
      conv_lhs => rw [← hsplit]
      rw [heq]
    · simp at h
  · simp at h

theorem matchCodeAt_struct {l : List Char} {g r : List Char}
    (h : matchCodeAt l = some (g, r)) :
    l = btick :: (g ++ btick :: r) ∧ g ≠ [] := by
  simp only [matchCodeAt] at h
  split at h
  · rename_i c t
    split_ifs at h with hc hg
    · split at h
      · rename_i d r0 heq
        split_ifs at h with hd
        simp only [Option.some.injEq, Prod.mk.injEq] at h
        have hsplit := List.takeWhile_append_dropWhile (fun e => decide (¬ e = btick)) t
        simp only [decide_not] at hsplit heq hg h
        refine ⟨?_, by rw [← h.1]; exact hg⟩
        rw [← h.1, ← h.2, hc]
        simp only [List.cons.injEq, true_and]
        conv_lhs => rw [← hsplit]
        rw [heq, hd]
      · simp at h
  · simp at h

theorem tokChar_false_nulFree {d : List Char} (hd : ∀ c ∈ d, tokChar c = false) :
    nulFree d := by
  intro hmem
  have h1 := hd _ hmem
  rw [show tokChar nulC = true from by decide] at h1
  exact absurd h1 (by simp)

theorem toks_wrapped_split {d1 d2 g r l : List Char} {i k : Nat}
    (h : Toks i k l) (hl : l = d1 ++ (g ++ (d2 ++ r)))
    (hd1 : ∀ c ∈ d1, tokChar c = false) (hd2 : ∀ c ∈ d2, tokChar c = false)
    (hd1n : d1 ≠ []) (hd2n : d2 ≠ []) :
    ∃ j, Toks i j g ∧ Toks j k r := by
  subst hl
  have e1 : d1 ++ (g ++ (d2 ++ r)) = (d1 ++ g ++ d2) ++ r := by simp
  obtain ⟨j, hA, hB⟩ := toks_split_last h _ _ e1 (by
    intro ch hch
    apply hd2
    rw [List.getLast?_append_of_ne_nil _ hd2n] at hch
    exact List.mem_of_getLast?_eq_some hch)
  obtain ⟨j2, hC, hD⟩ := toks_split_head hA (d1 ++ g) d2 (by simp) (by
    intro ch hch
    apply hd2
    cases d2 with
    | nil => simp at hch
    | cons e t =>
      simp at hch
      rw [hch]
      simp)
  have hj2 : j2 = j := toks_nulFree_eq hD (tokChar_false_nulFree hd2)
  obtain ⟨j3, hE, hF⟩ := toks_split_last hC d1 g rfl (by
    intro ch hch
    exact hd1 _ (List.mem_of_getLast?_eq_some hch))
  have hj3 : i = j3 := toks_nulFree_eq hE (tokChar_false_nulFree hd1)
  exact ⟨j, by rw [← hj3, hj2] at hF; exact hF, hB⟩

theorem emph_hRepl {opn cls d1 d2 : List Char}
    (hopn : nulFree opn) (hcls : nulFree cls)
    (hd1 : ∀ c ∈ d1, tokChar c = false) (hd2 : ∀ c ∈ d2, tokChar c = false)
    (hd2n : d2 ≠ [])
    {l g r : List Char} {i k : Nat}
    (hl : l = d1 ++ (g ++ (d2 ++ r))) (hd1n : d1 ≠ []) (h : Toks i k l) :
    ∃ j, Toks i j (opn ++ g ++ cls) ∧ Toks j k r := by
  obtain ⟨j, hg, hr⟩ := toks_wrapped_split h hl hd1 hd2 hd1n hd2n
  refine ⟨j, ?_, hr⟩
  rw [List.append_assoc]
  exact toks_prepend _ hopn (toks_append _ hcls hg)

theorem reBoldReplace_toks {l : List Char} {i k : Nat} (h : Toks i k l) :
    Toks i k (reBoldReplace l) := by
  unfold reBoldReplace
  refine replaceAll_toks _ _ ?_ ?_ ?_ _ _ _ _ _ (by omega) h
  · intro l' p hp
    obtain ⟨g, r⟩ := p
    have hl := (matchBoldAt_struct hp).1
    have h2 : (str "**").length = 2 := rfl
    rw [hl]
    simp [h2]
    omega
  · intro c t p hp
    obtain ⟨g, r⟩ := p
    have hl := (matchBoldAt_struct hp).1
    rw [show str "**" = ['*', '*'] from rfl] at hl
    simp only [List.cons_append, List.cons.injEq] at hl
    rw [hl.1]
    decide
  · intro l' p st i' k' hp ht
    obtain ⟨g, r⟩ := p
    exact emph_hRepl (by decide) (by decide) (by decide) (by decide) (by decide)
      (matchBoldAt_struct hp).1 (by decide) ht

theorem reBoldUReplace_toks {l : List Char} {i k : Nat} (h : Toks i k l) :
    Toks i k (reBoldUReplace l) := by
  unfold reBoldUReplace
  refine replaceAll_toks _ _ ?_ ?_ ?_ _ _ _ _ _ (by omega) h
  · intro l' p hp
    obtain ⟨g, r⟩ := p
    have hl := (matchBoldUAt_struct hp).1
    have h2 : (str "__").length = 2 := rfl
    rw [hl]
    simp [h2]
    omega
  · intro c t p hp
    obtain ⟨g, r⟩ := p
    have hl := (matchBoldUAt_struct hp).1
    rw [show str "__" = ['_', '_'] from rfl] at hl
    simp only [List.cons_append, List.cons.injEq] at hl
    rw [hl.1]
    decide
  · intro l' p st i' k' hp ht
    obtain ⟨g, r⟩ := p
    exact emph_hRepl (by decide) (by decide) (by decide) (by decide) (by decide)
      (matchBoldUAt_struct hp).1 (by decide) ht

theorem reItalicReplace_toks {l : List Char} {i k : Nat} (h : Toks i k l) :
    Toks i k (reItalicReplace l) := by
  unfold reItalicReplace
  refine replaceAll_toks _ _ ?_ ?_ ?_ _ _ _ _ _ (by omega) h
  · intro l' p hp
    obtain ⟨g, r⟩ := p
    have hl := (matchItalicAt_struct hp).1
    rw [hl]
    simp
    omega
  · intro c t p hp
    obtain ⟨g, r⟩ := p
    have hl := (matchItalicAt_struct hp).1
    simp only [List.cons.injEq] at hl
    rw [hl.1]
    decide
  · intro l' p st i' k' hp ht
    obtain ⟨g, r⟩ := p
    have hl := (matchItalicAt_struct hp).1
    have hl2 : l' = ['*'] ++ (g ++ (['*'] ++ r)) := by simpa using hl
    exact emph_hRepl (by decide) (by decide) (by decide) (by decide) (by decide)
      hl2 (by decide) ht

theorem reItalicUReplace_toks {l : List Char} {i k : Nat} (h : Toks i k l) :
    Toks i k (reItalicUReplace l) := by
  unfold reItalicUReplace
  refine replaceAll_toks _ _ ?_ ?_ ?_ _ _ _ _ _ (by omega) h
  · intro l' p hp
    obtain ⟨g, r⟩ := p
    have hl := (matchItalicUAt_struct hp).1
    rw [hl]
    simp
    omega
  · intro c t p hp
    obtain ⟨g, r⟩ := p
    have hl := (matchItalicUAt_struct hp).1
    simp only [List.cons.injEq] at hl
    rw [hl.1]
    decide
  · intro l' p st i' k' hp ht
    obtain ⟨g, r⟩ := p
    have hl := (matchItalicUAt_struct hp).1
    have hl2 : l' = ['_'] ++ (g ++ (['_'] ++ r)) := by simpa using hl
    exact emph_hRepl (by decide) (by decide) (by decide) (by decide) (by decide)
      hl2 (by decide) ht

theorem emphSeg_toks {l : List Char} {i k : Nat} (h : Toks i k l) :
    Toks i k (emphSeg l) :=
  reItalicUReplace_toks (reItalicReplace_toks (reBoldUReplace_toks (reBoldReplace_toks h)))

theorem applyOutsideTagsAux_toks (fn : List Char → List Char)
    (hfn : ∀ {i k : Nat} {l : List Char}, Toks i k l → Toks i k (fn l)) :
    ∀ (fuel : Nat) (l : List Char) (i k : Nat), Toks i k l →
      Toks i k (ApplyOutsideTagsAux fn fuel l) := by
  intro fuel
  induction fuel with
  | zero => intro l i k h; exact h
  | succ fuel ih =>
    intro l i k h
    cases l with
    | nil =>
      simp only [ApplyOutsideTagsAux]
      exact h
    | cons c t =>
      cases h1 : splitAtSub? (str "<") (c :: t) with
      | none =>
        simp only [ApplyOutsideTagsAux, h1]
        exact hfn h
      | some p =>
        obtain ⟨pre, r⟩ := p
        have hspec := splitAtSub?_spec (str "<") (c :: t) pre r h1
        rw [show str "<" = ['<'] from rfl] at hspec
        have hspec2 : c :: t = pre ++ ('<' :: r) := by rw [hspec]; simp
        obtain ⟨j, hpre, hrest⟩ := toks_split_head h pre ('<' :: r) hspec2 (by
          intro ch hch
          simp only [List.head?_cons, Option.some.injEq] at hch
          rw [← hch]
          decide)
        have hX : Toks i j (if pre = [] then [] else fn pre) := by
          by_cases hp : pre = []
          · subst hp
            simp only [if_pos rfl]
            exact hpre
          · rw [if_neg hp]
            exact hfn hpre
        cases h2 : splitAtSub? (str ">") r with
        | none =>
          simp only [ApplyOutsideTagsAux, h1, h2]
          exact toks_concat hX hrest
        | some q =>
          obtain ⟨inner, after⟩ := q
          have hspec3 := splitAtSub?_spec (str ">") r inner after h2
          rw [show str ">" = ['>'] from rfl] at hspec3
          have hdec : '<' :: r = ('<' :: inner ++ ['>']) ++ after := by
            rw [hspec3]
            simp
          obtain ⟨j2, htag, hafter⟩ := toks_split_last hrest _ _ hdec (by
            intro ch hch
            rw [List.getLast?_concat] at hch
            simp only [Option.some.injEq] at hch
            rw [← hch]
            decide)
          have hrec := ih after j2 k hafter
          have hout : Toks j k ('<' :: (inner ++ '>' :: ApplyOutsideTagsAux fn fuel after)) := by
            have h3 := toks_concat htag hrec
            simpa using h3
          simp only [ApplyOutsideTagsAux, h1, h2]
          exact toks_concat hX hout

theorem applyOutsideTags_emph_toks {l : List Char} {i k : Nat} (h : Toks i k l) :
    Toks i k (ApplyOutsideTags emphSeg l) :=
  applyOutsideTagsAux_toks emphSeg (fun h' => emphSeg_toks h') (l.length + 1) l i k h

theorem matchSize_struct {l w hh r : List Char}
    (hm : matchSize l = some ((w, hh), r)) :
    l = '|' :: (w ++ ('|' :: (hh ++ ('\x7d' :: r)))) ∧ w ≠ [] ∧ hh ≠ [] := by
  simp only [matchSize] at hm
  split at hm
  · rename_i t
    split_ifs at hm with hw
    split at hm
    · rename_i t3 heq2
      split_ifs at hm with hh0
      split at hm
      · rename_i t5 heq4
        simp only [Option.some.injEq, Prod.mk.injEq] at hm
        obtain ⟨⟨hw1, hh1⟩, hr1⟩ := hm
        refine ⟨?_, by rw [← hw1]; exact hw, by rw [← hh1]; exact hh0⟩
        have hs1 := List.takeWhile_append_dropWhile Char.isDigit t
        have hs2 := List.takeWhile_append_dropWhile Char.isDigit t3
        simp only [List.cons.injEq, true_and]
        rw [← hw1, ← hh1, ← hr1]
        conv_lhs => rw [← hs1]
        rw [heq2]
        simp only [List.append_cancel_left_eq, List.cons.injEq, true_and]
        conv_lhs => rw [← hs2]
        rw [heq4]
      · simp at hm
    · simp at hm
  · simp at hm

theorem matchStyleClose_struct {l sty r : List Char} {sz : Option (List Char × List Char)}
    (hm : matchStyleClose l = some ((sty, sz), r)) :
    l = sty ++ sizeTail sz r := by
  simp only [matchStyleClose] at hm
  have hs := List.takeWhile_append_dropWhile
    (fun c => decide (¬ (c = '|' ∨ c = '\x7d'))) l
  split at hm
  · rename_i t2 heq
    simp only [Option.some.injEq, Prod.mk.injEq] at hm
    obtain ⟨⟨h1, h2⟩, h3⟩ := hm
    rw [← h1, ← h2, ← h3]
    simp only [sizeTail]
    conv_lhs => rw [← hs]
    simp only [decide_not] at heq ⊢
    rw [heq]
  · rename_i x hx heq
    rw [Option.map_eq_some'] at hm
    obtain ⟨p, hp, hpe⟩ := hm
    obtain ⟨⟨w2, h2⟩, r2⟩ := p
    have hstruct := (matchSize_struct hp).1
    simp only [Option.some.injEq, Prod.mk.injEq] at hpe
    obtain ⟨⟨e1, e2⟩, e3⟩ := hpe
    rw [← e1, ← e2, ← e3]
    simp only [sizeTail]
    conv_lhs => rw [← hs]
    rw [← hstruct]
  · simp at hm

theorem matchImgAt_struct {l r : List Char} {m : ImgMatch}
    (hm : matchImgAt l = some (m, r)) :
    l = '!' :: '[' :: (m.alt ++ (str "](" ++ (m.url ++ (str ")\x7b" ++
      (m.style ++ sizeTail m.size r))))) := by
  unfold matchImgAt at hm
  split at hm
  · rename_i t
    obtain ⟨pa, hpa, hfa⟩ := List.exists_of_findSome?_eq_some hm
    have hspa := dotSplits_spec (str "](") t pa hpa
    obtain ⟨pu, hpu, hfu⟩ := List.exists_of_findSome?_eq_some hfa
    have hspu := dotSplits_spec (str ")\x7b") pa.2 pu hpu
    rw [Option.map_eq_some'] at hfu
    obtain ⟨ps, hps, hpse⟩ := hfu
    obtain ⟨⟨sty0, sz0⟩, r0⟩ := ps
    have hsty := matchStyleClose_struct hps
    simp only [Option.some.injEq, Prod.mk.injEq] at hpse
    obtain ⟨hm1, hm2⟩ := hpse
    rw [← hm1, ← hm2]
    simp only [List.cons.injEq, true_and]
    rw [hspa, hspu, hsty]
    simp
  · simp at hm

theorem matchLinkAt_struct {l r : List Char} {m : LinkMatch}
    (hm : matchLinkAt l = some (m, r)) :
    l = '[' :: (m.text ++ (str "](" ++ (m.url ++ (')' :: caretTail m.caret r)))) := by
  unfold matchLinkAt at hm
  split at hm
  · rename_i t
    obtain ⟨pt, hpt, hft⟩ := List.exists_of_findSome?_eq_some hm
    have hspt := dotSplits_spec (str "](") t pt hpt
    obtain ⟨pu, hpu, hfu⟩ := List.exists_of_findSome?_eq_some hft
    have hspu := dotSplits_spec (str ")") pt.2 pu hpu
    split at hfu
    · rename_i r0 heq
      simp only [Option.some.injEq, Prod.mk.injEq] at hfu
      obtain ⟨hm1, hm2⟩ := hfu
      rw [← hm1, ← hm2]
      simp only [List.cons.injEq, true_and, caretTail]
      rw [hspt, hspu, heq]
      simp [str]
    · rename_i hne
      simp only [Option.some.injEq, Prod.mk.injEq] at hfu
      obtain ⟨hm1, hm2⟩ := hfu
      rw [← hm1, ← hm2]
      simp only [List.cons.injEq, true_and, caretTail]
      rw [hspt, hspu]
      simp [str]
  · simp at hm

theorem sizeTail_length (sz : Option (List Char × List Char)) (r : List Char) :
    r.length < (sizeTail sz r).length := by
  cases sz with
  | none => simp [sizeTail]
  | some p =>
    obtain ⟨w, hh⟩ := p
    simp [sizeTail]
    omega

theorem caretTail_length (b : Bool) (r : List Char) :
    r.length ≤ (caretTail b r).length := by
  cases b with
  | false => simp [caretTail]
  | true => simp [caretTail]

theorem matchImgAt_consumes : ∀ (l : List Char) (p : ImgMatch × List Char),
    matchImgAt l = some p → p.2.length < l.length := by
  intro l p hm
  obtain ⟨m, r⟩ := p
  have hs := matchImgAt_struct hm
  have h1 := sizeTail_length m.size r
  have e1 : (str "](").length = 2 := rfl
  have e2 : (str ")\x7b").length = 2 := rfl
  rw [hs]
  simp only [List.length_cons, List.length_append, e1, e2]
  omega

theorem matchLinkAt_consumes : ∀ (l : List Char) (p : LinkMatch × List Char),
    matchLinkAt l = some p → p.2.length < l.length := by
  intro l p hm
  obtain ⟨m, r⟩ := p
  have hs := matchLinkAt_struct hm
  have h1 := caretTail_length m.caret r
  have e1 : (str "](").length = 2 := rfl
  rw [hs]
  simp only [List.length_cons, List.length_append, e1]
  omega

theorem nulFree_if {c : Prop} [Decidable c] {a b : List Char}
    (ha : nulFree a) (hb : nulFree b) : nulFree (if c then a else b) := by
  split
  · exact ha
  · exact hb

theorem imgRepl_hRepl : ∀ (l : List Char) (p : ImgMatch × List Char) (st : Nat),
    matchImgAt l = some p → nulFree l →
    nulFree (imgRepl p.1 st).1 ∧ nulFree p.2 := by
  intro l p st hm hl
  obtain ⟨m, r⟩ := p
  have hs := matchImgAt_struct hm
  rw [hs] at hl
  have h1 := nulFree_cons_tail (nulFree_cons_tail hl)
  have halt := nulFree_append_left h1
  have h2 := nulFree_append_right (nulFree_append_right h1)
  have hurl := nulFree_append_left h2
  have h3 := nulFree_append_right (nulFree_append_right h2)
  have hstyle := nulFree_append_left h3
  have h4 := nulFree_append_right h3
  have hsrc := safeURL_nulFree hurl
  cases hsz : m.size with
  | none =>
    rw [hsz] at h4
    simp only [sizeTail] at h4
    have hr := nulFree_cons_tail h4
    refine ⟨?_, hr⟩
    simp only [imgRepl, hsz]
    split
    · exact halt
    · dsimp only
      repeat' apply nulFree_append
      all_goals first
        | assumption
        | decide
        | exact nulFree_if (by decide) (by decide)
  | some p =>
    obtain ⟨w, hh⟩ := p
    rw [hsz] at h4
    simp only [sizeTail] at h4
    have h5 := nulFree_cons_tail h4
    have hw := nulFree_append_left h5
    have h6 := nulFree_cons_tail (nulFree_append_right h5)
    have hhh := nulFree_append_left h6
    have hr := nulFree_cons_tail (nulFree_append_right h6)
    refine ⟨?_, hr⟩
    simp only [imgRepl, hsz]
    split
    · exact halt
    · dsimp only
      repeat' apply nulFree_append
      all_goals first
        | assumption
        | decide
        | exact nulFree_if (by decide) (by decide)

theorem linkRepl_hRepl : ∀ (l : List Char) (p : LinkMatch × List Char) (st : Unit),
    matchLinkAt l = some p → nulFree l →
    nulFree ((fun m (_ : Unit) => (linkRepl m, ())) p.1 st).1 ∧ nulFree p.2 := by
  intro l p st hm hl
  obtain ⟨m, r⟩ := p
  have hs := matchLinkAt_struct hm
  rw [hs] at hl
  have h1 := nulFree_cons_tail hl
  have htext := nulFree_append_left h1
  have h2 := nulFree_append_right (nulFree_append_right h1)
  have hurl := nulFree_append_left h2
  have h3 := nulFree_cons_tail (nulFree_append_right h2)
  have hhref := safeURL_nulFree hurl
  have hr : nulFree r := by
    cases hc : m.caret with
    | false =>
      rw [hc] at h3
      simpa [caretTail] using h3
    | true =>
      rw [hc] at h3
      simp only [caretTail] at h3
      exact nulFree_cons_tail h3
  refine ⟨?_, hr⟩
  simp only [linkRepl]
  apply nulFree_if htext
  repeat' apply nulFree_append
  all_goals first
    | assumption
    | decide
    | exact nulFree_if (by decide) (by decide)

theorem imgStage_nulFree {l : List Char} {cnt : Nat} (h : nulFree l) :
    nulFree (imgStage l cnt).1 := by
  unfold imgStage
  exact replaceAll_nulFree _ _ matchImgAt_consumes imgRepl_hRepl _ _ _ (by omega) h

theorem linkStage_nulFree {l : List Char} (h : nulFree l) :
    nulFree (linkStage l) := by
  unfold linkStage
  exact replaceAll_nulFree _ _ matchLinkAt_consumes linkRepl_hRepl _ _ _ (by omega) h

theorem codeStage_toks_aux : ∀ (fuel : Nat) (l : List Char) (acc : List (List Char)),
    l.length ≤ fuel → nulFree l →
    ∃ newf, (replaceAllFuelSt matchCodeAt codeRepl fuel l acc).2 = acc ++ newf ∧
      Toks acc.length ((replaceAllFuelSt matchCodeAt codeRepl fuel l acc).2).length
        (replaceAllFuelSt matchCodeAt codeRepl fuel l acc).1 := by
  intro fuel
  induction fuel with
  | zero =>
    intro l acc h1 h2
    have hnil : l = [] := List.length_eq_zero.mp (Nat.le_zero.mp h1)
    subst hnil
    refine ⟨[], by simp [replaceAllFuelSt], ?_⟩
    simp only [replaceAllFuelSt]
    exact Toks.nil _ _ nulFree_nil
  | succ fuel ih =>
    intro l acc h1 h2
    cases l with
    | nil =>
      refine ⟨[], by simp [replaceAllFuelSt], ?_⟩
      simp only [replaceAllFuelSt]
      exact Toks.nil _ _ nulFree_nil
    | cons c t =>
      cases hm : matchCodeAt (c :: t) with
      | some p =>
        obtain ⟨g, r⟩ := p
        have hst := (matchCodeAt_struct hm).1
        have hrlen : r.length + 1 ≤ fuel := by
          have hlen := congrArg List.length hst
          simp at hlen
          simp only [List.length_cons] at h1
          omega
        have hrnf : nulFree r := by
          rw [hst] at h2
          exact nulFree_cons_tail (nulFree_append_right (nulFree_cons_tail h2))
        rw [replaceAll_cons_some matchCodeAt codeRepl fuel c t acc g r hm]
        obtain ⟨newf, hq2, hqt⟩ :=
          ih r (acc ++ [str "<code>" ++ g ++ str "</code>"]) (by omega) hrnf
        simp only [codeRepl] at hq2 hqt ⊢
        refine ⟨(str "<code>" ++ g ++ str "</code>") :: newf, by rw [hq2]; simp, ?_⟩
        simp only [List.length_append, List.length_cons, List.length_nil] at hqt
        have hcons := Toks.cons acc.length _ [] _ nulFree_nil hqt
        simpa using hcons
      | none =>
        have hc : ¬ c = nulC := nulFree_cons_head h2
        rw [replaceAll_cons_none matchCodeAt codeRepl fuel c t acc hm]
        obtain ⟨newf, hq2, hqt⟩ := ih t acc
          (by simp only [List.length_cons] at h1; omega) (nulFree_cons_tail h2)
        refine ⟨newf, hq2, ?_⟩
        have hpre := toks_prepend [c] (nulFree_cons hc nulFree_nil) hqt
        simpa using hpre

theorem codeStage_toks {l : List Char} (h : nulFree l) :
    Toks 0 (codeStage l).2.length (codeStage l).1 := by
  unfold codeStage
  obtain ⟨newf, h2, ht⟩ := codeStage_toks_aux (l.length + 1) l [] (by omega) h
  simpa using ht

theorem codeStage_frags_nulFree_aux : ∀ (fuel : Nat) (l : List Char) (acc : List (List Char)),
    nulFree l → (∀ f ∈ acc, nulFree f) →
    ∀ f ∈ (replaceAllFuelSt matchCodeAt codeRepl fuel l acc).2, nulFree f := by
  intro fuel
  induction fuel with
  | zero =>
    intro l acc _ hacc
    simpa [replaceAllFuelSt] using hacc
  | succ fuel ih =>
    intro l acc h2 hacc
    cases l with
    | nil => simpa [replaceAllFuelSt] using hacc
    | cons c t =>
      cases hm : matchCodeAt (c :: t) with
      | some p =>
        obtain ⟨g, r⟩ := p
        have hst := (matchCodeAt_struct hm).1
        have hg : nulFree g := by
          rw [hst] at h2
          exact nulFree_append_left (nulFree_cons_tail h2)
        have hr : nulFree r := by
          rw [hst] at h2
          exact nulFree_cons_tail (nulFree_append_right (nulFree_cons_tail h2))
        rw [replaceAll_cons_some matchCodeAt codeRepl fuel c t acc g r hm]
        simp only [codeRepl]
        apply ih r _ hr
        intro f hf
        rw [List.mem_append] at hf
        rcases hf with hf | hf
        · exact hacc f hf
        · simp only [List.mem_singleton] at hf
          subst hf
          exact nulFree_append (nulFree_append (by decide) hg) (by decide)
      | none =>
        rw [replaceAll_cons_none matchCodeAt codeRepl fuel c t acc hm]
        exact ih t acc (nulFree_cons_tail h2) hacc

theorem codeStage_frags_nulFree {l : List Char} (h : nulFree l) :
    ∀ f ∈ (codeStage l).2, nulFree f := by
  unfold codeStage
  exact codeStage_frags_nulFree_aux (l.length + 1) l [] h (by simp)

theorem replaceOnce_skip {pat c : List Char} (hpat : pat.head? = some nulC) :
    ∀ {s : List Char}, nulFree s → ∀ (rest : List Char),
    replaceOnce pat c (s ++ rest) = s ++ replaceOnce pat c rest := by
  intro s
  induction s with
  | nil => intro _ rest; simp
  | cons d s' ih =>
    intro hs rest
    have hd := nulFree_cons_head hs
    cases pat with
    | nil => simp at hpat
    | cons p0 pt =>
      simp only [List.head?_cons, Option.some.injEq] at hpat
      have hne : (p0 == d) = false := by
        rw [hpat]
        exact beq_eq_false_iff_ne.mpr (fun h => hd h.symm)
      simp only [List.cons_append, replaceOnce]
      split
      · rename_i hpre
        simp [List.isPrefixOf, hne] at hpre
      · simp only [List.append_eq]
        rw [ih (nulFree_cons_tail hs) rest]

theorem replaceOnce_hit {pat : List Char} (hp0 : pat ≠ []) (c rest : List Char) :
    replaceOnce pat c (pat ++ rest) = c ++ rest := by
  cases pat with
  | nil => exact absurd rfl hp0
  | cons d t =>
    have key : ∀ l, l = (d :: t) ++ rest → replaceOnce (d :: t) c l = c ++ rest := by
      intro l hl
      cases l with
      | nil => simp at hl
      | cons e u =>
        have he : e = d ∧ u = t ++ rest := by simpa using hl
        obtain ⟨he1, he2⟩ := he
        subst he2
        rw [he1]
        have hcc : (d :: t) ++ rest = d :: (t ++ rest) := by simp
        have hpre := isPrefixOf_append_self (d :: t) rest
        rw [hcc] at hpre
        simp only [replaceOnce]
        rw [if_pos hpre]
        congr 1
        rw [← hcc, List.drop_left]
    exact key _ rfl

theorem restoreCodes_skip {s : List Char} (hs : nulFree s) :
    ∀ (cs : List (List Char)) (i : Nat) (rest : List Char),
    restoreCodes (s ++ rest) cs i = s ++ restoreCodes rest cs i := by
  intro cs
  induction cs with
  | nil => intro i rest; simp [restoreCodes]
  | cons c cs ih =>
    intro i rest
    simp only [restoreCodes]
    rw [replaceOnce_skip (phTok_head i) hs, ih]

theorem toks_lt_destruct {i k : Nat} {l : List Char} (h : Toks i k l) (hik : i < k) :
    ∃ s l', nulFree s ∧ l = s ++ phTok i ++ l' ∧ Toks (i + 1) k l' := by
  cases h with
  | nil _ _ hs => omega
  | cons _ _ s l' hs hl' => exact ⟨s, l', hs, rfl, hl'⟩

theorem restore_spec : ∀ (cs : List (List Char)) (i : Nat) (l : List Char),
    Toks i (i + cs.length) l → (∀ f ∈ cs, nulFree f) →
    InterNF cs (restoreCodes l cs i) := by
  intro cs
  induction cs with
  | nil =>
    intro i l h _
    simp only [restoreCodes]
    exact InterNF.nil _ (toks_self_nulFree (by simpa using h))
  | cons c cs ih =>
    intro i l h hcs
    obtain ⟨s, l', hs, hleq, hl'⟩ := toks_lt_destruct h (by simp)
    subst hleq
    have hc : nulFree c := hcs c (by simp)
    simp only [restoreCodes]
    have hro : replaceOnce (phTok i) c (s ++ phTok i ++ l') = (s ++ c) ++ l' := by
      rw [List.append_assoc, replaceOnce_skip (phTok_head i) hs,
        replaceOnce_hit (phTok_ne_nil i)]
      simp
    rw [hro, restoreCodes_skip (nulFree_append hs hc)]
    have hidx : i + (c :: cs).length = (i + 1) + cs.length := by simp; omega
    rw [hidx] at hl'
    have hrec := ih (i + 1) l' hl' (fun f hf => hcs f (by simp [hf]))
    have hfin := InterNF.cons c cs s _ hs hrec
    simpa using hfin

theorem interNF_nulFree : ∀ {cs : List (List Char)} {out : List Char},
    InterNF cs out → (∀ f ∈ cs, nulFree f) → nulFree out := by
  intro cs out h hcs
  induction h with
  | nil _ hs => exact hs
  | cons c cs' s l hs hl ih =>
    refine nulFree_append (nulFree_append hs (hcs c (by simp))) ?_
    exact ih (fun f hf => hcs f (by simp [hf]))

theorem interNF_mem_infix : ∀ {cs : List (List Char)} {out f : List Char},
    InterNF cs out → f ∈ cs → f <:+: out := by
  intro cs out f h hf
  induction h with
  | nil _ _ => simp at hf
  | cons c cs' s l hs hl ih =>
    rw [List.mem_cons] at hf
    rcases hf with hf | hf
    · subst hf
      exact ⟨s, l, by simp⟩
    · obtain ⟨a, b, hab⟩ := ih hf
      exact ⟨s ++ c ++ a, b, by rw [← hab]; simp⟩

theorem formatInline_interNF (s : List Char) (cnt : Nat) (h : nulFree s) :
    InterNF (inlineCodeFragments s cnt) (FormatInline s cnt).1 ∧
    nulFree (FormatInline s cnt).1 := by
  have h1 : nulFree (escapeString s) := escapeString_nulFree h
  have h2 : nulFree (imgStage (escapeString s) cnt).1 := imgStage_nulFree h1
  have h3 : nulFree (linkStage (imgStage (escapeString s) cnt).1) := linkStage_nulFree h2
  have h4 := codeStage_toks h3
  have h5 := codeStage_frags_nulFree h3
  have h6 := applyOutsideTags_emph_toks h4
  have h7 : Toks 0 (0 + (codeStage (linkStage (imgStage (escapeString s) cnt).1)).2.length)
      (ApplyOutsideTags emphSeg (codeStage (linkStage (imgStage (escapeString s) cnt).1)).1) := by
    simpa using h6
  have h8 := restore_spec _ 0 _ h7 h5
  simp only [FormatInline, inlineCodeFragments]
  exact ⟨h8, interNF_nulFree h8 h5⟩

/-- C3 (amended: restricted to inputs without NUL characters).  The
placeholder tokens `\x00IC<n>\x00` contain the NUL character, which cannot
occur in NUL-free document content (HTML escaping, image, and link
substitution keep the text NUL-free), so the tokens cannot collide with it;
the output of `FormatInline` interleaves the recorded `<code>` fragments, in
original order, with NUL-free segments — each fragment stands exactly where
its own placeholder stood — and the output is NUL-free, so no placeholder
token survives in it.  (For inputs that contain NUL the original claim is
refuted by `c3_counterexample`.) -/
theorem c3_placeholder_restore (s : List Char) (cnt : Nat) (h : nulFree s) :
    InterNF (inlineCodeFragments s cnt) (FormatInline s cnt).1 ∧
    nulFree (FormatInline s cnt).1 :=
  formatInline_interNF s cnt h

theorem c3_placeholder_restore_witness :
    nulFree (str "a " ++ (btick :: 'x' :: [btick])) ∧
    (InterNF (inlineCodeFragments (str "a " ++ (btick :: 'x' :: [btick])) 0)
        (FormatInline (str "a " ++ (btick :: 'x' :: [btick])) 0).1 ∧
      nulFree (FormatInline (str "a " ++ (btick :: 'x' :: [btick])) 0).1) :=
  ⟨by decide, c3_placeholder_restore (str "a " ++ (btick :: 'x' :: [btick])) 0 (by decide)⟩

/-- C3 counterexample to the unrestricted claim: on an input that itself
contains a placeholder-shaped string (`\x00IC0\x00` followed by an
inline-code span), the placeholder token of the extracted span survives in
the output of `FormatInline` — the restoration step replaces the input's
own copy of the token instead. -/
theorem c3_counterexample :
    phTok 0 <:+: (FormatInline [nulC, 'I', 'C', '0', nulC, btick, 'x', btick] 0).1 := by
  decide

/-- C5 (amended: the protection guarantee is restricted to inputs without
NUL characters).  Emphasis substitution never fires inside an inline code
span: for every NUL-free input, every recorded `<code>` fragment — the
escaped span content with its `*`/`**`/`_`/`__` markers intact, wrapped in
`<code>`/`</code>` — reappears verbatim (as a contiguous substring) in the
output of `FormatInline`; concretely, `**bold**` renders to
`<strong>bold</strong>` while the backtick-quoted `**not bold**` renders to
`<code>**not bold**</code>`.  (For inputs that contain NUL the protection
fails: `c5_counterexample`.) -/
theorem c5_code_span_protected :
    (∀ (s : List Char) (cnt : Nat), nulFree s →
      ∀ f ∈ inlineCodeFragments s cnt, f <:+: (FormatInline s cnt).1) ∧
    FormatInline (str "**bold**") 0 = (str "<strong>bold</strong>", 0) ∧
    FormatInline (btick :: (str "**not bold**" ++ [btick])) 0 =
      (str "<code>**not bold**</code>", 0) := by
  refine ⟨?_, ?_, ?_⟩
  · intro s cnt h f hf
    exact interNF_mem_infix (formatInline_interNF s cnt h).1 hf
  · decide
  · decide

theorem c5_code_span_protected_witness :
    nulFree [btick, 'x', btick] ∧
    str "<code>x</code>" ∈ inlineCodeFragments [btick, 'x', btick] 0 ∧
    str "<code>x</code>" <:+: (FormatInline [btick, 'x', btick] 0).1 :=
  ⟨by decide, by decide, c5_code_span_protected.1 [btick, 'x', btick] 0 (by decide)
    (str "<code>x</code>") (by decide)⟩

/-- C5 counterexample to the unrestricted claim: in the input
`` `a\x00IC1\x00b` `c` `` the first span's content contains the placeholder
token of the second span, so restoration rewrites the inside of the first
`<code>` fragment and the span content `a\x00IC1\x00b` does not appear in
the output at all — emphasis-free span preservation fails for inputs that
contain NUL. -/
theorem c5_counterexample :
    ¬ (['a', nulC, 'I', 'C', '1', nulC, 'b'] <:+:
      (FormatInline [btick, 'a', nulC, 'I', 'C', '1', nulC, 'b', btick, ' ',
        btick, 'c', btick] 0).1) := by
  decide
